import Mathlib

/-!
Verification development for the PyPcre resource-caching subsystem.

The definitions below are a shallow embedding of the C sources:

* `src/pcre_ext/hash.c` — the sparse FNV-style key hash
  (`compute_sparse_stride`, `fnv_mix_sparse_bytes`, `pcre_sparse_hash_object`);
* `src/pcre_ext/cache_key.c` — the `SparseCacheKey` object
  (`compute_key_hash`, `SparseCacheKey_hash`, `SparseCacheKey_richcompare`);
* `src/pcre/pattern_cache.c` — the thread-local and the global (shared)
  pattern caches (`mapping_*`, `remove_oldest_entry`, `global_cache_*`,
  `cached_compile`, `set_cache_limit`, `clear_cache`, `cache_strategy_fn`);
* `src/pcre_ext/cache.c` — the match-data scratch pool
  (`thread_match_data_cache_acquire`, `thread_match_data_cache_evict_tail`,
  `thread_match_data_cache_release`) and the backend strategy coordinator
  (`module_set_cache_strategy`, `mark_cache_strategy_locked`).

Machine integers are modelled as `Nat` reduced modulo `2 ^ 64` where the C
code computes in `uint64_t`; the signed `Py_hash_t` view is kept in its
64-bit two's-complement representation, so the sentinel `-1` is the value
`2 ^ 64 - 1` and the substitute `-2` is `2 ^ 64 - 2`.  C `while` loops are
embedded as fuel-indexed structural recursions; each call site passes a fuel
value that provably dominates the number of iterations the C loop performs.
-/

namespace PyPcre

/-! ## Sparse key hash (src/pcre_ext/hash.c) -/

/-- FNV-1a 64-bit offset basis (`FNV64_OFFSET` in hash.c). -/
def FNV64_OFFSET : Nat := 0xcbf29ce484222325

/-- FNV-1a 64-bit prime (`FNV64_PRIME` in hash.c). -/
def FNV64_PRIME : Nat := 0x100000001b3

/-- Two to the sixty-fourth, the modulus of `uint64_t` arithmetic. -/
def U64 : Nat := 2 ^ 64

/-- The 64-bit pattern of `(Py_hash_t)(-1)`, the invalid-hash sentinel. -/
def HASH_SENTINEL : Nat := U64 - 1

/-- The 64-bit pattern of `(Py_hash_t)(-2)`, the substitute constant. -/
def HASH_SUBSTITUTE : Nat := U64 - 2

/-- Loop body of `compute_sparse_stride`: starting from `stride`, double the
stride while `length / stride > 8`, bailing out once the stride passes
`PY_SSIZE_T_MAX >> 1 = 2 ^ 62`.  The C loop runs at most 62 iterations
because of that guard, so fuel 64 is always sufficient. -/
def strideLoop : Nat → Nat → Nat → Nat
  | 0, stride, _ => stride
  | fuel + 1, stride, length =>
    if length / stride > 8 then
      if stride > 2 ^ 62 then stride else strideLoop fuel (stride * 2) length
    else stride

/-- `compute_sparse_stride` from hash.c: stride starts at 2 and doubles while
`length / stride > 8`. -/
def compute_sparse_stride (length : Nat) : Nat :=
  strideLoop 64 2 length

/-- One FNV-1a step on a sampled byte: xor it in, multiply by the prime,
truncate to 64 bits.  The `% U64` on the byte is the C cast to `uint64_t`. -/
def fnvMixStep (hash byte : Nat) : Nat :=
  ((hash ^^^ byte % U64) * FNV64_PRIME) % U64

/-- The sampling loop of `fnv_mix_sparse_bytes`: visit indices
`index, index + stride, index + stride * 2, …` while they are in range.
With `stride ≥ 1` the loop advances at least one index per iteration, so
fuel `data.length` dominates the iteration count. -/
def fnvLoop : Nat → Nat → List Nat → Nat → Nat → Nat
  | 0, hash, _, _, _ => hash
  | fuel + 1, hash, data, index, stride =>
    if h : index < data.length then
      fnvLoop fuel (fnvMixStep hash (data.get ⟨index, h⟩)) data (index + stride) stride
    else hash

/-- The byte values the sampling loop visits, collected by the same
fuel-indexed recursion as `fnvLoop`: positions `index, index + stride, …`. -/
def samplesFrom : Nat → List Nat → Nat → Nat → List Nat
  | 0, _, _, _ => []
  | fuel + 1, data, index, stride =>
    if h : index < data.length then
      data.get ⟨index, h⟩ :: samplesFrom fuel data (index + stride) stride
    else []

/-- The bytes `fnv_mix_sparse_bytes` samples: positions `stride - 1`,
`2 * stride - 1`, `3 * stride - 1`, … of the input. -/
def sparseSamples (data : List Nat) (stride : Nat) : List Nat :=
  samplesFrom data.length data (stride - 1) stride

/-- `fnv_mix_sparse_bytes` from hash.c: an FNV-1a accumulator over the bytes
at positions `stride - 1, 2 * stride - 1, …`, and the plain offset basis when
the first sampled position is already out of range. -/
def fnv_mix_sparse_bytes (data : List Nat) (stride : Nat) : Nat :=
  let start := stride - 1
  if start ≥ data.length then FNV64_OFFSET
  else fnvLoop data.length FNV64_OFFSET data start stride

/-- The "natural" hash value computed by `pcre_sparse_hash_object` before the
sentinel substitution: sparse-mix the content (only when the length exceeds
one), then xor in `length >> 5`. -/
def pcre_sparse_hash_natural (data : List Nat) : Nat :=
  (if data.length > 1 then fnv_mix_sparse_bytes data (compute_sparse_stride data.length)
   else FNV64_OFFSET) ^^^ (data.length >>> 5)

/-- `pcre_sparse_hash_object` from hash.c on a bytes-like input, as the
64-bit pattern of the returned `Py_hash_t`: the natural value, with the
sentinel `-1` replaced by `-2`. -/
def pcre_sparse_hash (data : List Nat) : Nat :=
  if pcre_sparse_hash_natural data = HASH_SENTINEL then HASH_SUBSTITUTE
  else pcre_sparse_hash_natural data

/-! ## Sparse cache key (src/pcre_ext/cache_key.c) -/

/-- `compute_key_hash` from cache_key.c for a bytes-like pattern: the sparse
hash of the pattern xored with `flags << 1` and the jit bit, with the
sentinel `-1` again replaced by `-2`. -/
def compute_key_hash (pattern : List Nat) (flags : Nat) (jit : Bool) : Nat :=
  let base := pcre_sparse_hash pattern
  let combined := base ^^^ ((flags <<< 1) % U64) ^^^ (if jit then 1 else 0)
  if combined = HASH_SENTINEL then HASH_SUBSTITUTE else combined

/-- The `SparseCacheKey` object: a pattern value, a compiler-flags bitmask,
the jit flag, and the hash computed once at construction time. -/
structure SparseCacheKey where
  pattern : List Nat
  flags : Nat
  jit : Bool
  hash_value : Nat
  deriving DecidableEq, Repr

/-- `SparseCacheKey_new`: store the components and cache the computed hash. -/
def SparseCacheKey_new (pattern : List Nat) (flags : Nat) (jit : Bool) :
    SparseCacheKey :=
  ⟨pattern, flags, jit, compute_key_hash pattern flags jit⟩

/-- `SparseCacheKey_hash`: return the cached hash. -/
def SparseCacheKey_hash (k : SparseCacheKey) : Nat := k.hash_value

/-- The `Py_EQ` case of `SparseCacheKey_richcompare`: the cached hashes, the
flags and the jit bits must agree, and then the patterns must be equal (the
pointer-identity shortcut and `PyObject_RichCompareBool` both collapse to
value equality of the pattern). -/
def SparseCacheKey_eq (a b : SparseCacheKey) : Bool :=
  if a.hash_value = b.hash_value ∧ a.flags = b.flags ∧ a.jit = b.jit then
    decide (a.pattern = b.pattern)
  else false

/-! ## Pattern caches (src/pcre/pattern_cache.c)

Python dictionaries preserve insertion order, so both pattern caches are
modelled as association lists whose head is the oldest (first-inserted)
entry; `remove_oldest_entry` pops the iterator's first key, i.e. the head.
A `cache_limit` of `-1`/`None` (unbounded) is modelled as `none`. -/

section PatternCache

variable {K V : Type} [DecidableEq K]

/-- `PyObject_GetItem` on the cache dictionary: the value stored under the
first (and, for reachable caches, only) binding of the key. -/
def dict_lookup : List (K × V) → K → Option V
  | [], _ => none
  | kv :: rest, k => if kv.1 = k then some kv.2 else dict_lookup rest k

/-- `PyObject_SetItem` on the cache dictionary: update the value in place if
the key is present, otherwise append a new binding at the end (Python dicts
keep the original position on update). -/
def mapping_set : List (K × V) → K → V → List (K × V)
  | [], k, v => [(k, v)]
  | kv :: rest, k, v =>
    if kv.1 = k then (kv.1, v) :: rest else kv :: mapping_set rest k v

/-- `PyDict_DelItem`: drop the first binding of the key (a `KeyError` for an
absent key is swallowed by the caller, leaving the dict unchanged, which is
also what erasing a missing key does here). -/
def dict_del (cache : List (K × V)) (k : K) : List (K × V) :=
  cache.eraseP (fun kv => decide (kv.1 = k))

/-- `remove_oldest_entry`: take the mapping iterator's first key and pop it;
on an empty mapping the function is a successful no-op. -/
def remove_oldest_entry : List (K × V) → List (K × V)
  | [] => []
  | _ :: rest => rest

/-- The eviction loop of `mapping_ensure_capacity`: `size` is read once and
then counted down, removing the oldest entry while `size >= limit`.  The
callers only reach this loop with `limit >= 1`, for which the fuel pattern
below is exact (with `limit = 0` the C loop would never terminate). -/
def ensureCapacityLoop : Nat → Nat → List (K × V) → List (K × V)
  | 0, _, cache => cache
  | size + 1, limit, cache =>
    if size + 1 ≥ limit then ensureCapacityLoop size limit (remove_oldest_entry cache)
    else cache

/-- `mapping_ensure_capacity`: no-op for a negative (unbounded) limit, clear
for limit 0, and the `size >= limit` eviction loop otherwise. -/
def mapping_ensure_capacity (cache : List (K × V)) : Option Nat → List (K × V)
  | none => cache
  | some 0 => []
  | some limit => ensureCapacityLoop cache.length limit cache

/-- State of one `ThreadCacheEntry`: the thread-confined pattern cache and
its capacity (`cache_limit`, `none` for unbounded). -/
structure ThreadCache (K V : Type) where
  cache : List (K × V)
  limit : Option Nat
  deriving DecidableEq, Repr

/-- A fresh thread cache entry: empty dict, `DEFAULT_THREAD_CACHE_LIMIT`. -/
def threadInit : ThreadCache K V := ⟨[], some 32⟩

/-- Outcome of one `cached_compile` call: the returned object (`none` for a
propagated failure), whether the backend compile service was invoked, and
the cache state afterwards. -/
structure ThreadStepOut (K V : Type) where
  result : Option V
  invoked : Bool
  state : ThreadCache K V
  deriving DecidableEq, Repr

/-- The thread-local branch of `cached_compile`.  `hashable` tells whether
hashing the composite key succeeds (an unhashable key raises `TypeError`
inside `mapping_get`, which is swallowed and reported via `is_unhashable`);
`compileResult` is the outcome of `call_compile_and_wrap`. -/
def thread_cached_compile (tc : ThreadCache K V) (hashable : Bool) (k : K)
    (compileResult : Option V) : ThreadStepOut K V :=
  if tc.limit = some 0 then ⟨compileResult, true, tc⟩
  else if hashable then
    match dict_lookup tc.cache k with
    | some v => ⟨some v, false, tc⟩
    | none =>
      match compileResult with
      | none => ⟨none, true, tc⟩
      | some v =>
        let cache1 :=
          match tc.limit with
          | some limit => ensureCapacityLoop tc.cache.length limit tc.cache
          | none => tc.cache
        ⟨some v, true, { tc with cache := mapping_set cache1 k v }⟩
  else ⟨compileResult, true, tc⟩

/-- The thread-local branch of `set_cache_limit`: store the new limit, then
clear for limit 0 or run `mapping_ensure_capacity` for a positive limit. -/
def thread_set_cache_limit (tc : ThreadCache K V) (limit : Option Nat) :
    ThreadCache K V :=
  match limit with
  | some 0 => ⟨[], some 0⟩
  | some (l + 1) => ⟨mapping_ensure_capacity tc.cache (some (l + 1)), some (l + 1)⟩
  | none => ⟨tc.cache, none⟩

/-- The thread-local branch of `clear_cache`: `mapping_clear`. -/
def thread_clear_cache (tc : ThreadCache K V) : ThreadCache K V :=
  ⟨[], tc.limit⟩

/-- State of the `GlobalCacheStateObject`: the shared pattern dict, the
append-only order ledger (`none` entries are tombstones of evicted keys),
the compacted-head index and the capacity. -/
structure GlobalCache (K V : Type) where
  cache : List (K × V)
  order : List (Option K)
  head : Nat
  limit : Option Nat
  deriving DecidableEq, Repr

/-- The freshly initialised global cache state: empty dict, empty ledger,
`DEFAULT_GLOBAL_CACHE_LIMIT`. -/
def globalInit : GlobalCache K V := ⟨[], [], 0, some 128⟩

/-- `global_cache_compact_order`: once more than 64 slots are consumed and
they make up more than half the ledger, drop the processed prefix. -/
def global_cache_compact_order (c : GlobalCache K V) : GlobalCache K V :=
  if c.head ≤ 64 ∨ c.head * 2 ≤ c.order.length then c
  else { c with order := c.order.drop c.head, head := 0 }

/-- The ledger scan inside `global_cache_evict_one`: walk the slots from the
current head, skipping tombstones; report the offset and key of the first
live slot. -/
def evictScan : List (Option K) → Option (Nat × K)
  | [] => none
  | none :: rest => (evictScan rest).map (fun p => (p.1 + 1, p.2))
  | some k :: _ => some (0, k)

/-- `global_cache_evict_one`: advance the head past tombstones; on the first
live slot delete that key from the dict, tombstone the slot and compact.
When the scan exhausts the ledger the head ends up at its length. -/
def global_cache_evict_one (c : GlobalCache K V) : GlobalCache K V :=
  match evictScan (c.order.drop c.head) with
  | some (i, k) =>
    global_cache_compact_order
      { c with
          cache := dict_del c.cache k
          order := c.order.set (c.head + i) none
          head := c.head + i + 1 }
  | none =>
    global_cache_compact_order { c with head := max c.head c.order.length }

/-- The eviction loop of `global_cache_trim`: while the dict is over the
limit, evict one entry, stopping early when the ledger head reaches its
end.  Every iteration consumes at least one ledger slot (compaction keeps
the distance `order.length - head` unchanged), so fuel
`c.order.length + 1` always dominates the C loop's iteration count. -/
def globalTrimLoop : Nat → Nat → GlobalCache K V → GlobalCache K V
  | 0, _, c => c
  | fuel + 1, limit, c =>
    if c.cache.length ≤ limit then c
    else
      if (global_cache_evict_one c).order.length ≤ (global_cache_evict_one c).head then
        global_cache_evict_one c
      else globalTrimLoop fuel limit (global_cache_evict_one c)

/-- `global_cache_trim`: nothing for an unbounded limit, otherwise the
eviction loop. -/
def global_cache_trim (c : GlobalCache K V) : GlobalCache K V :=
  match c.limit with
  | none => c
  | some limit => globalTrimLoop (c.order.length + 1) limit c

/-- Outcome of one global-strategy `cached_compile` call. -/
structure GlobalStepOut (K V : Type) where
  result : Option V
  invoked : Bool
  state : GlobalCache K V
  deriving DecidableEq, Repr

/-- The insertion performed by the global `cached_compile` after a
successful compile: `PyDict_SetItem` into the dict and `PyList_Append` of
the key onto the order ledger. -/
def global_insert_entry (c : GlobalCache K V) (k : K) (v : V) : GlobalCache K V :=
  { c with
      cache := mapping_set c.cache k v
      order := c.order ++ [some k] }

/-- The global branch of `cached_compile`: capacity 0 bypasses the cache;
a hit returns the cached object; an unhashable key compiles uncached; a
failed compile propagates; otherwise, with a positive limit, trim, insert
into the dict and ledger, and trim again (with an unbounded limit the two
`cache_limit > 0` trims are skipped). -/
def global_cached_compile (c : GlobalCache K V) (hashable : Bool) (k : K)
    (compileResult : Option V) : GlobalStepOut K V :=
  if c.limit = some 0 then ⟨compileResult, true, c⟩
  else if hashable then
    match dict_lookup c.cache k with
    | some v => ⟨some v, false, c⟩
    | none =>
      match compileResult with
      | none => ⟨none, true, c⟩
      | some v =>
        match c.limit with
        | some (_ + 1) =>
          ⟨some v, true,
            global_cache_trim (global_insert_entry (global_cache_trim c) k v)⟩
        | _ => ⟨some v, true, global_insert_entry c k v⟩
  else ⟨compileResult, true, c⟩

/-- The global branch of `set_cache_limit`: store the new limit, then clear
dict and ledger for limit 0 or `global_cache_trim` for a positive limit. -/
def global_set_cache_limit (c : GlobalCache K V) (limit : Option Nat) :
    GlobalCache K V :=
  match limit with
  | some 0 => { c with limit := some 0, cache := [], order := [], head := 0 }
  | some (l + 1) => global_cache_trim { c with limit := some (l + 1) }
  | none => { c with limit := none }

/-- The global branch of `clear_cache`: clear the dict, slice the ledger to
nothing and reset the head. -/
def global_clear_cache (c : GlobalCache K V) : GlobalCache K V :=
  { c with cache := [], order := [], head := 0 }

/-- One user-visible pattern-cache operation: a `cached_compile` call (with
the hashability of its key and the compile service's answer), a
`set_cache_limit` call, or a `clear_cache` call. -/
inductive CacheOp (K V : Type) where
  | compileOp (k : K) (hashable : Bool) (res : Option V)
  | setLimitOp (limit : Option Nat)
  | clearOp
  deriving DecidableEq, Repr

/-- Apply one operation to the thread-confined cache. -/
def threadStep (tc : ThreadCache K V) : CacheOp K V → ThreadCache K V
  | .compileOp k h r => (thread_cached_compile tc h k r).state
  | .setLimitOp l => thread_set_cache_limit tc l
  | .clearOp => thread_clear_cache tc

/-- Run a sequence of operations on the thread-confined cache. -/
def threadRun (tc : ThreadCache K V) (ops : List (CacheOp K V)) : ThreadCache K V :=
  ops.foldl threadStep tc

/-- Apply one operation to the shared cache. -/
def globalStep (c : GlobalCache K V) : CacheOp K V → GlobalCache K V
  | .compileOp k h r => (global_cached_compile c h k r).state
  | .setLimitOp l => global_set_cache_limit c l
  | .clearOp => global_clear_cache c

/-- Run a sequence of operations on the shared cache. -/
def globalRun (c : GlobalCache K V) (ops : List (CacheOp K V)) : GlobalCache K V :=
  ops.foldl globalStep c

/-- Well-formedness of the shared cache state: the live part of the order
ledger lists exactly the dict's keys in insertion order, and the compacted
head never points past the ledger's end.  This holds for every reachable
state and is what makes the trim loop's early break harmless. -/
def GlobalWF (c : GlobalCache K V) : Prop :=
  c.order.drop c.head = c.cache.map (fun kv => some kv.1)
  ∧ c.head ≤ c.order.length

instance (c : GlobalCache K V) : Decidable (GlobalWF c) := by
  unfold GlobalWF; infer_instance

/-- Capacity soundness of the thread cache: when the limit is bounded, the
resident entry count stays within it. -/
def ThreadBound (tc : ThreadCache K V) : Prop :=
  ∀ n, tc.limit = some n → tc.cache.length ≤ n

/-- Capacity soundness of the shared cache. -/
def GlobalBound (c : GlobalCache K V) : Prop :=
  ∀ n, c.limit = some n → c.cache.length ≤ n

/-- The reachable-state invariant of the shared cache: ledger alignment
plus capacity soundness. -/
def GlobalInv (c : GlobalCache K V) : Prop :=
  GlobalWF c ∧ GlobalBound c

/-- The last `n` elements of a list (in order). -/
def lastN (n : Nat) (l : List α) : List α :=
  l.drop (l.length - n)

/-- Run a sequence of hashable, always-successful `cached_compile` calls on
the thread cache, the compile service producing `f k` for key `k`. -/
def threadInsertRun (f : K → V) : ThreadCache K V → List K → ThreadCache K V
  | tc, [] => tc
  | tc, k :: rest =>
    threadInsertRun f (thread_cached_compile tc true k (some (f k))).state rest

/-- The subsequence of such a run's calls that invoked the compile service,
i.e. the cache misses (= insertions, since every compile succeeds). -/
def threadMissSeq (f : K → V) : ThreadCache K V → List K → List K
  | _, [] => []
  | tc, k :: rest =>
    if (thread_cached_compile tc true k (some (f k))).invoked then
      k :: threadMissSeq f (thread_cached_compile tc true k (some (f k))).state rest
    else threadMissSeq f (thread_cached_compile tc true k (some (f k))).state rest

/-- The analogous run on the shared cache. -/
def globalInsertRun (f : K → V) : GlobalCache K V → List K → GlobalCache K V
  | c, [] => c
  | c, k :: rest =>
    globalInsertRun f (global_cached_compile c true k (some (f k))).state rest

/-- The misses of such a shared-cache run. -/
def globalMissSeq (f : K → V) : GlobalCache K V → List K → List K
  | _, [] => []
  | c, k :: rest =>
    if (global_cached_compile c true k (some (f k))).invoked then
      k :: globalMissSeq f (global_cached_compile c true k (some (f k))).state rest
    else globalMissSeq f (global_cached_compile c true k (some (f k))).state rest

end PatternCache

/-! ## Strategy coordinators

Two coordinator instances exist: the one in `src/pcre/pattern_cache.c`
(`CURRENT_STRATEGY` / `CACHE_STRATEGY_LOCKED`, driven by `cached_compile`
and `cache_strategy_fn`) and the one in `src/pcre_ext/cache.c`
(`cache_strategy` / `cache_strategy_locked`, driven by the match-data and
jit-stack pool entry points and `module_set_cache_strategy`). -/

/-- The `CacheStrategy` enumeration shared by both modules. -/
inductive CacheStrategy where
  | threadLocal
  | global
  deriving DecidableEq, Repr

/-- `cache_strategy_name` from cache.c (the same two nouns are used by
`cache_strategy_fn` in pattern_cache.c). -/
def cache_strategy_name : CacheStrategy → String
  | .threadLocal => "thread-local"
  | .global => "global"

/-- Parse a requested strategy name, as both setters do with `strcmp`. -/
def parse_strategy (raw : String) : Option CacheStrategy :=
  if raw = "thread-local" then some .threadLocal
  else if raw = "global" then some .global
  else none

/-- The strategy state of a coordinator: the current strategy and the
locked flag. -/
structure StrategyState where
  current : CacheStrategy
  locked : Bool
  deriving DecidableEq, Repr

/-- `lock_cache_strategy` (pattern_cache.c), called at the top of every
`cached_compile` call: set the locked flag, touch nothing else. -/
def lock_cache_strategy (s : StrategyState) : StrategyState :=
  { s with locked := true }

/-- `mark_cache_strategy_locked` (cache.c), called by the match-data and
jit-stack cache acquire and release entry points. -/
def mark_cache_strategy_locked (s : StrategyState) : StrategyState :=
  { s with locked := true }

/-- Result of a strategy call: the frontend returns the strategy name on
success, the backend returns `None`; errors carry their message text. -/
inductive StrategyCallResult where
  | okName (name : String)
  | okNone
  | valueError (msg : String)
  | runtimeError (msg : String)
  deriving DecidableEq, Repr

/-- The fixed message `cache_strategy_fn` raises once the strategy is
locked (pattern_cache.c line 951). -/
def FRONTEND_LOCK_MESSAGE : String :=
  "cache strategy is fixed at import time; set PYPCRE_CACHE_PATTERN_GLOBAL=1 before importing pcre to enable the global cache"

/-- The setter arm of `cache_strategy_fn` from pattern_cache.c: an unknown
name is a `ValueError`; setting the current strategy again succeeds and
returns the name even when locked; changing a locked strategy raises a
`RuntimeError` with the fixed message above. -/
def cache_strategy_fn (s : StrategyState) (raw : String) :
    StrategyCallResult × StrategyState :=
  match parse_strategy raw with
  | none => (.valueError "cache strategy must be 'thread-local' or 'global'", s)
  | some desired =>
    if desired = s.current then (.okName raw, s)
    else if s.locked then (.runtimeError FRONTEND_LOCK_MESSAGE, s)
    else (.okName raw, { s with current := desired })

/-- `module_set_cache_strategy` from cache.c: an unknown name is a
`ValueError`; changing a locked strategy raises a `RuntimeError` whose
message interpolates the name of the currently locked strategy; otherwise
the strategy is stored (a same-value store when it already matches). -/
def module_set_cache_strategy (s : StrategyState) (raw : String) :
    StrategyCallResult × StrategyState :=
  match parse_strategy raw with
  | none => (.valueError ("unsupported cache strategy '" ++ raw ++ "'"), s)
  | some desired =>
    if s.locked ∧ desired ≠ s.current then
      (.runtimeError
        ("cache strategy already locked to '" ++ cache_strategy_name s.current ++ "'"), s)
    else (.okNone, { s with current := desired })

/-- Whether `needle` occurs at the start of `hay`. -/
def startsWithChars : List Char → List Char → Bool
  | [], _ => true
  | _ :: _, [] => false
  | a :: as, b :: bs => a == b && startsWithChars as bs

/-- Whether `needle` occurs anywhere inside `hay`; used to ask whether an
error message names a strategy. -/
def containsChars (needle : List Char) : List Char → Bool
  | [] => startsWithChars needle []
  | c :: rest => startsWithChars needle (c :: rest) || containsChars needle rest

/-! ## Match-data scratch pool (src/pcre_ext/cache.c)

The thread-confined match-data pool: a singly linked free list whose head
is the most recently released object, a tracked entry count and a
capacity.  Each pooled object carries the `ovec_count` recorded at release
time; the `id` field stands for the `pcre2_match_data` pointer so that
object identity is observable. -/

/-- A pooled match-data object: its identity and its ovector pair count. -/
structure MatchData where
  id : Nat
  ovec : Nat
  deriving DecidableEq, Repr

/-- The match-data pool portion of `ThreadCacheState`. -/
structure MatchPool where
  entries : List MatchData
  count : Nat
  capacity : Nat
  deriving DecidableEq, Repr

/-- The free-list scan inside `thread_match_data_cache_acquire`: find the
first entry (from the head) whose `ovec_count` satisfies the requirement,
and unlink it. -/
def scanAcquire : List MatchData → Nat → Option (MatchData × List MatchData)
  | [], _ => none
  | e :: rest, required =>
    if e.ovec ≥ required then some (e, rest)
    else
      match scanAcquire rest required with
      | some (found, rest') => some (found, e :: rest')
      | none => none

/-- `thread_match_data_cache_evict_tail`: walk to the end of the free list,
unlink the last (structurally oldest) entry and free it; the count is
decremented only when positive (`Nat` subtraction models the guard). -/
def thread_match_data_cache_evict_tail (st : MatchPool) : MatchPool :=
  match st.entries with
  | [] => st
  | _ :: _ => { st with entries := st.entries.dropLast, count := st.count - 1 }

/-- The fresh-construction tail of `thread_match_data_cache_acquire`: build
an object sized exactly to the requirement via `create`
(`pcre2_match_data_create(required_pairs, NULL)`), falling back to
`createFromPattern` (`pcre2_match_data_create_from_pattern`) when that
fails. -/
def match_data_create_fresh (required : Nat) (create : Nat → Option MatchData)
    (createFromPattern : Option MatchData) : Option MatchData :=
  match create required with
  | some md => some md
  | none => createFromPattern

/-- `thread_match_data_cache_acquire`: with nonzero capacity, scan the free
list for the first fit and return it; if none fits and the count has
reached the capacity, evict the tail entry; finally construct a fresh
object via `match_data_create_fresh`. -/
def thread_match_data_cache_acquire (st : MatchPool) (required : Nat)
    (create : Nat → Option MatchData) (createFromPattern : Option MatchData) :
    Option MatchData × MatchPool :=
  if st.capacity ≠ 0 then
    match scanAcquire st.entries required with
    | some (found, rest) =>
      (some found, { st with entries := rest, count := st.count - 1 })
    | none =>
      if st.count ≥ st.capacity then
        (match_data_create_fresh required create createFromPattern,
          thread_match_data_cache_evict_tail st)
      else (match_data_create_fresh required create createFromPattern, st)
  else (match_data_create_fresh required create createFromPattern, st)

/-- The trailing eviction loop of `thread_match_data_cache_release`: evict
the tail while the count exceeds the capacity.  Fuel `st.count` dominates
the iteration count for every consistent pool (each eviction of a nonempty
list decrements the count). -/
def releaseEvictLoop : Nat → MatchPool → MatchPool
  | 0, st => st
  | fuel + 1, st =>
    if st.count > st.capacity then
      releaseEvictLoop fuel (thread_match_data_cache_evict_tail st)
    else st

/-- `thread_match_data_cache_release`: with capacity 0 destroy immediately;
otherwise push the object at the head of the free list and evict from the
tail until the pool is back within bound. -/
def thread_match_data_cache_release (st : MatchPool) (md : MatchData) : MatchPool :=
  if st.capacity = 0 then st
  else
    releaseEvictLoop (st.count + 1)
      { st with entries := md :: st.entries, count := st.count + 1 }

/-! ## Lemmas about the sparse hash -/

theorem strideLoop_le (fuel : Nat) : ∀ stride length : Nat,
    stride ≤ strideLoop fuel stride length := by
  induction fuel with
  | zero => intro stride length; exact Nat.le_refl _
  | succ fuel ih =>
    intro stride length
    simp only [strideLoop]
    split
    · split
      · exact Nat.le_refl _
      · exact Nat.le_trans (by omega) (ih (stride * 2) length)
    · exact Nat.le_refl _

theorem strideLoop_div_le (fuel : Nat) : ∀ stride length : Nat,
    0 < stride → length < 2 ^ 63 → length < 9 * stride * 2 ^ fuel →
    length / strideLoop fuel stride length ≤ 8 := by
  induction fuel with
  | zero =>
    intro stride length hs _ hbound
    simp only [strideLoop]
    have h9 : length / stride < 9 := by
      rw [Nat.div_lt_iff_lt_mul hs]
      omega
    omega
  | succ fuel ih =>
    intro stride length hs hlen hbound
    simp only [strideLoop]
    split
    · split
      · rename_i hgt hbig
        exfalso
        have h9 : 9 * stride ≤ length := by
          rw [← Nat.le_div_iff_mul_le hs]
          omega
        have : (2 : Nat) ^ 62 < stride := hbig
        have : (2 : Nat) ^ 63 = 2 * 2 ^ 62 := by norm_num
        omega
      · refine ih (stride * 2) length (by omega) hlen ?_
        have hpow : (2 : Nat) ^ (fuel + 1) = 2 ^ fuel * 2 := pow_succ 2 fuel
        calc length < 9 * stride * 2 ^ (fuel + 1) := hbound
          _ = 9 * (stride * 2) * 2 ^ fuel := by rw [hpow]; ring
    · rename_i hle
      omega

theorem compute_sparse_stride_pos (length : Nat) :
    2 ≤ compute_sparse_stride length :=
  strideLoop_le 64 2 length

theorem compute_sparse_stride_div_le (length : Nat) (hlen : length < 2 ^ 63) :
    length / compute_sparse_stride length ≤ 8 := by
  refine strideLoop_div_le 64 2 length (by omega) hlen ?_
  have : (2 : Nat) ^ 63 < 9 * 2 * 2 ^ 64 := by norm_num
  omega

theorem samplesFrom_out_of_range (fuel : Nat) : ∀ (data : List Nat) (index stride : Nat),
    data.length ≤ index → samplesFrom fuel data index stride = [] := by
  induction fuel with
  | zero => intro data index stride _; rfl
  | succ fuel _ =>
    intro data index stride h
    simp only [samplesFrom]
    rw [dif_neg (by omega)]

theorem fnvLoop_eq_foldl (fuel : Nat) : ∀ (hash : Nat) (data : List Nat) (index stride : Nat),
    fnvLoop fuel hash data index stride =
      (samplesFrom fuel data index stride).foldl fnvMixStep hash := by
  induction fuel with
  | zero => intro hash data index stride; rfl
  | succ fuel ih =>
    intro hash data index stride
    simp only [fnvLoop, samplesFrom]
    by_cases h : index < data.length
    · rw [dif_pos h, dif_pos h, ih, List.foldl_cons]
    · rw [dif_neg h, dif_neg h, List.foldl_nil]

theorem samplesFrom_length (fuel : Nat) : ∀ (data : List Nat) (index stride : Nat),
    0 < stride → data.length ≤ index + fuel →
    (samplesFrom fuel data index stride).length =
      (data.length - index + stride - 1) / stride := by
  induction fuel with
  | zero =>
    intro data index stride hs hfuel
    rw [samplesFrom_out_of_range 0 data index stride (by omega)]
    have hz : data.length - index = 0 := by omega
    rw [hz]
    simp only [List.length_nil]
    rw [Nat.div_eq_of_lt (by omega)]
  | succ fuel ih =>
    intro data index stride hs hfuel
    simp only [samplesFrom]
    by_cases h : index < data.length
    · rw [dif_pos h]
      simp only [List.length_cons]
      rw [ih data (index + stride) stride hs (by omega)]
      set A := data.length - index with hA
      have hA1 : 1 ≤ A := by omega
      have hstep : A + stride - 1 = (A - 1) + stride := by omega
      have hleft : (A + stride - 1) / stride = (A - 1) / stride + 1 := by
        rw [hstep, Nat.add_div_right _ hs]
      have hA' : data.length - (index + stride) = A - stride := by omega
      rw [hA', hleft]
      rcases le_or_lt stride A with hge | hlt
      · have : A - stride + stride - 1 = A - 1 := by omega
        rw [this]
      · have hz : A - stride = 0 := by omega
        rw [hz]
        have h1 : (A - 1) / stride = 0 := Nat.div_eq_of_lt (by omega)
        have h2 : (0 + stride - 1) / stride = 0 := Nat.div_eq_of_lt (by omega)
        rw [h1, h2]
    · rw [dif_neg h]
      have hz : data.length - index = 0 := by omega
      rw [hz]
      simp only [List.length_nil]
      rw [Nat.div_eq_of_lt (by omega)]

theorem sparseSamples_length (data : List Nat) (stride : Nat) (hs : 0 < stride) :
    (sparseSamples data stride).length = data.length / stride := by
  unfold sparseSamples
  rw [samplesFrom_length data.length data (stride - 1) stride hs (by omega)]
  rcases le_or_lt stride (data.length + 1) with hge | hlt
  · congr 1
    omega
  · have h1 : data.length - (stride - 1) = 0 := by omega
    rw [h1, Nat.div_eq_of_lt (by omega), Nat.div_eq_of_lt (by omega)]

theorem fnv_mix_eq_foldl (data : List Nat) (stride : Nat) :
    fnv_mix_sparse_bytes data stride =
      (sparseSamples data stride).foldl fnvMixStep FNV64_OFFSET := by
  unfold fnv_mix_sparse_bytes sparseSamples
  by_cases h : stride - 1 ≥ data.length
  · rw [if_pos h, samplesFrom_out_of_range data.length data (stride - 1) stride h]
    rfl
  · rw [if_neg h, fnvLoop_eq_foldl]

theorem sparseSamples_get (fuel : Nat) : ∀ (data : List Nat) (index stride j : Nat),
    j < (samplesFrom fuel data index stride).length →
    (samplesFrom fuel data index stride).get? j = data.get? (index + j * stride) := by
  induction fuel with
  | zero => intro data index stride j h; simp [samplesFrom] at h
  | succ fuel ih =>
    intro data index stride j h
    simp only [samplesFrom] at h ⊢
    by_cases hin : index < data.length
    · rw [dif_pos hin] at h ⊢
      match j with
      | 0 =>
        simp only [List.get?_cons_zero, Nat.zero_mul, Nat.add_zero]
        rw [List.get?_eq_get hin]
      | j + 1 =>
        simp only [List.get?_cons_succ]
        rw [ih data (index + stride) stride j (by simpa using h)]
        congr 1
        ring
    · rw [dif_neg hin] at h
      simp at h

/-! ## Lemmas about the association-list dictionary -/

section DictLemmas

variable {K V : Type} [DecidableEq K]

theorem dict_lookup_eq_none_iff (cache : List (K × V)) (k : K) :
    dict_lookup cache k = none ↔ k ∉ cache.map Prod.fst := by
  induction cache with
  | nil => simp [dict_lookup]
  | cons kv rest ih =>
    simp only [dict_lookup, List.map_cons, List.mem_cons]
    by_cases h : kv.1 = k
    · simp [h]
    · rw [if_neg h, ih]
      constructor
      · intro hnot hor
        rcases hor with h1 | h2
        · exact h h1.symm
        · exact hnot h2
      · intro hnot hmem
        exact hnot (Or.inr hmem)

theorem mapping_set_of_not_mem (cache : List (K × V)) (k : K) (v : V)
    (h : k ∉ cache.map Prod.fst) : mapping_set cache k v = cache ++ [(k, v)] := by
  induction cache with
  | nil => rfl
  | cons kv rest ih =>
    simp only [List.map_cons, List.mem_cons] at h
    push_neg at h
    simp only [mapping_set, List.cons_append]
    rw [if_neg (fun hh => h.1 (Eq.symm hh)), ih h.2]

theorem dict_lookup_append_right (cache : List (K × V)) (k : K) (v : V)
    (h : k ∉ cache.map Prod.fst) : dict_lookup (cache ++ [(k, v)]) k = some v := by
  induction cache with
  | nil => simp [dict_lookup]
  | cons kv rest ih =>
    simp only [List.map_cons, List.mem_cons] at h
    push_neg at h
    simp only [List.cons_append, dict_lookup]
    rw [if_neg (fun hh => h.1 (Eq.symm hh))]
    exact ih h.2

omit [DecidableEq K] in
theorem not_mem_keys_drop (cache : List (K × V)) (k : K) (d : Nat)
    (h : k ∉ cache.map Prod.fst) : k ∉ (cache.drop d).map Prod.fst := by
  intro hmem
  rw [List.map_drop] at hmem
  exact h (List.drop_subset d (cache.map Prod.fst) hmem)

omit [DecidableEq K] in
theorem remove_oldest_cons (kv : K × V) (rest : List (K × V)) :
    remove_oldest_entry (kv :: rest) = rest := rfl

omit [DecidableEq K] in
theorem ensureCapacityLoop_eq_drop :
    ∀ (size limit : Nat) (cache : List (K × V)), cache.length = size → 1 ≤ limit →
      ensureCapacityLoop size limit cache = cache.drop (size - (limit - 1)) := by
  intro size
  induction size with
  | zero =>
    intro limit cache hlen _
    have h0 : 0 - (limit - 1) = 0 := by omega
    rw [h0, List.drop_zero]
    rfl
  | succ size ih =>
    intro limit cache hlen hlim
    simp only [ensureCapacityLoop]
    by_cases h : size + 1 ≥ limit
    · rw [if_pos h]
      cases cache with
      | nil => simp at hlen
      | cons kv rest =>
        rw [remove_oldest_cons, ih limit rest (by simpa using hlen) hlim]
        have hidx : size + 1 - (limit - 1) = (size - (limit - 1)) + 1 := by omega
        rw [hidx, List.drop_succ_cons]
    · rw [if_neg h]
      have h0 : size + 1 - (limit - 1) = 0 := by omega
      rw [h0, List.drop_zero]

omit [DecidableEq K] in
theorem mapping_ensure_capacity_some (cache : List (K × V)) (l : Nat) :
    mapping_ensure_capacity cache (some (l + 1)) = cache.drop (cache.length - l) := by
  have := ensureCapacityLoop_eq_drop cache.length (l + 1) cache rfl (by omega)
  simp only [mapping_ensure_capacity]
  rw [this]
  simp only [Nat.add_sub_cancel]

end DictLemmas

/-! ## Path lemmas for the thread-confined cached_compile -/

section ThreadLemmas

variable {K V : Type} [DecidableEq K]

theorem thread_compile_unhashable (tc : ThreadCache K V) (k : K) (r : Option V) :
    thread_cached_compile tc false k r = ⟨r, true, tc⟩ := by
  simp [thread_cached_compile]

theorem thread_compile_limit_zero (tc : ThreadCache K V) (h : Bool) (k : K)
    (r : Option V) (hl : tc.limit = some 0) :
    thread_cached_compile tc h k r = ⟨r, true, tc⟩ := by
  simp [thread_cached_compile, hl]

theorem thread_compile_hit (tc : ThreadCache K V) (k : K) (v : V) (r : Option V)
    (hl : tc.limit ≠ some 0) (hfind : dict_lookup tc.cache k = some v) :
    thread_cached_compile tc true k r = ⟨some v, false, tc⟩ := by
  simp [thread_cached_compile, hl, hfind]

theorem thread_compile_fail (tc : ThreadCache K V) (k : K)
    (hl : tc.limit ≠ some 0) (hfind : dict_lookup tc.cache k = none) :
    thread_cached_compile tc true k none = ⟨none, true, tc⟩ := by
  simp [thread_cached_compile, hl, hfind]

theorem thread_compile_miss_bounded (tc : ThreadCache K V) (k : K) (v : V) (n : Nat)
    (hl : tc.limit = some (n + 1)) (hfind : dict_lookup tc.cache k = none) :
    thread_cached_compile tc true k (some v) =
      ⟨some v, true,
        { tc with cache := mapping_set (tc.cache.drop (tc.cache.length - n)) k v }⟩ := by
  have hne : tc.limit ≠ some 0 := by rw [hl]; simp
  simp only [thread_cached_compile, if_neg hne, if_pos rfl, hfind, hl]
  rw [← mapping_ensure_capacity_some tc.cache n]
  rfl

theorem thread_compile_miss_unbounded (tc : ThreadCache K V) (k : K) (v : V)
    (hl : tc.limit = none) (hfind : dict_lookup tc.cache k = none) :
    thread_cached_compile tc true k (some v) =
      ⟨some v, true, { tc with cache := mapping_set tc.cache k v }⟩ := by
  have hne : tc.limit ≠ some 0 := by rw [hl]; simp
  simp [thread_cached_compile, hne, hfind, hl]

theorem threadStep_bound (tc : ThreadCache K V) (op : CacheOp K V)
    (hb : ThreadBound tc) : ThreadBound (threadStep tc op) := by
  cases op with
  | compileOp k h r =>
    simp only [threadStep]
    match h with
    | false => rw [thread_compile_unhashable]; exact hb
    | true =>
      by_cases hl0 : tc.limit = some 0
      · rw [thread_compile_limit_zero tc true k r hl0]; exact hb
      · cases hfind : dict_lookup tc.cache k with
        | some v => rw [thread_compile_hit tc k v r hl0 hfind]; exact hb
        | none =>
          cases r with
          | none => rw [thread_compile_fail tc k hl0 hfind]; exact hb
          | some v =>
            cases hlim : tc.limit with
            | none =>
              rw [thread_compile_miss_unbounded tc k v hlim hfind]
              intro n hn
              rw [hlim] at hn
              exact absurd hn (by simp)
            | some m =>
              match m with
              | 0 => exact absurd hlim hl0
              | mm + 1 =>
                rw [thread_compile_miss_bounded tc k v mm hlim hfind]
                intro n hn
                rw [hlim] at hn
                have hkeys : k ∉ (tc.cache.drop (tc.cache.length - mm)).map Prod.fst :=
                  not_mem_keys_drop _ _ _ ((dict_lookup_eq_none_iff _ _).mp hfind)
                rw [mapping_set_of_not_mem _ _ _ hkeys]
                simp only [List.length_append, List.length_drop, List.length_cons,
                  List.length_nil]
                have hn' : n = mm + 1 := (Option.some.inj hn).symm
                omega
  | setLimitOp l =>
    simp only [threadStep]
    match l with
    | some 0 =>
      intro n hn
      simp only [thread_set_cache_limit] at hn ⊢
      have : n = 0 := (Option.some.inj hn).symm
      simp [this]
    | some (l + 1) =>
      intro n hn
      simp only [thread_set_cache_limit] at hn ⊢
      have hn' : n = l + 1 := (Option.some.inj hn).symm
      rw [mapping_ensure_capacity_some]
      simp only [List.length_drop]
      omega
    | none =>
      intro n hn
      simp only [thread_set_cache_limit] at hn
      exact absurd hn (by simp)
  | clearOp =>
    intro n _
    simp [threadStep, thread_clear_cache]

theorem threadRun_bound :
    ∀ (ops : List (CacheOp K V)) (tc : ThreadCache K V), ThreadBound tc →
      ThreadBound (threadRun tc ops) := by
  intro ops
  induction ops with
  | nil => intro tc hb; exact hb
  | cons op rest ih =>
    intro tc hb
    rw [threadRun, List.foldl_cons]
    exact ih (threadStep tc op) (threadStep_bound tc op hb)

omit [DecidableEq K] in
theorem lastN_drop_append (ms : List K) (k : K) (n : Nat) :
    (lastN (n + 1) ms).drop ((lastN (n + 1) ms).length - n) ++ [k] =
      lastN (n + 1) (ms ++ [k]) := by
  unfold lastN
  rw [List.length_drop, List.drop_drop, List.length_append]
  have hidx : ms.length - (n + 1) + (ms.length - (ms.length - (n + 1)) - n) =
      ms.length - n := by omega
  have hidx2 : ms.length + [k].length - (n + 1) = ms.length - n := by
    simp only [List.length_cons, List.length_nil]
    omega
  rw [hidx, hidx2, List.drop_append_of_le_length (by omega)]

theorem threadInsertRun_fifo (f : K → V) (n : Nat) :
    ∀ (calls ms : List K),
      (threadInsertRun f ⟨(lastN (n + 1) ms).map (fun k => (k, f k)), some (n + 1)⟩
          calls).cache =
        (lastN (n + 1)
            (ms ++ threadMissSeq f
              ⟨(lastN (n + 1) ms).map (fun k => (k, f k)), some (n + 1)⟩ calls)).map
          (fun k => (k, f k)) := by
  intro calls
  induction calls with
  | nil => intro ms; simp [threadInsertRun, threadMissSeq]
  | cons k rest ih =>
    intro ms
    cases hfind :
        dict_lookup ((lastN (n + 1) ms).map (fun k => (k, f k)) :
          List (K × V)) k with
    | some v =>
      have hstep :=
        thread_compile_hit
          (⟨(lastN (n + 1) ms).map (fun k => (k, f k)), some (n + 1)⟩ : ThreadCache K V)
          k v (some (f k)) (by simp) hfind
      simp only [threadInsertRun, threadMissSeq, hstep, Bool.false_eq_true, if_false]
      exact ih ms
    | none =>
      have hstep :=
        thread_compile_miss_bounded
          (⟨(lastN (n + 1) ms).map (fun k => (k, f k)), some (n + 1)⟩ : ThreadCache K V)
          k (f k) n rfl hfind
      have hkeys := (dict_lookup_eq_none_iff _ k).mp hfind
      have hstate :
          (thread_cached_compile
              (⟨(lastN (n + 1) ms).map (fun k => (k, f k)), some (n + 1)⟩ :
                ThreadCache K V) true k (some (f k))).state =
            ⟨(lastN (n + 1) (ms ++ [k])).map (fun k => (k, f k)), some (n + 1)⟩ := by
        rw [hstep]
        dsimp only
        rw [mapping_set_of_not_mem _ _ _ (not_mem_keys_drop _ _ _ hkeys)]
        rw [List.length_map, ← List.map_drop]
        rw [show ([(k, f k)] : List (K × V)) = [k].map (fun k => (k, f k)) from rfl]
        rw [← List.map_append, lastN_drop_append]
      have hinv :
          (thread_cached_compile
              (⟨(lastN (n + 1) ms).map (fun k => (k, f k)), some (n + 1)⟩ :
                ThreadCache K V) true k (some (f k))).invoked = true := by
        rw [hstep]
      simp only [threadInsertRun, threadMissSeq]
      rw [hstate, hinv]
      simp only [if_true]
      rw [ih (ms ++ [k])]
      congr 2
      simp

end ThreadLemmas

/-! ## Lemmas about the shared cache's ledger bookkeeping -/

section GlobalLemmas

variable {K V : Type} [DecidableEq K]

omit [DecidableEq K] in
theorem compact_cache (c : GlobalCache K V) :
    (global_cache_compact_order c).cache = c.cache := by
  unfold global_cache_compact_order
  split <;> rfl

omit [DecidableEq K] in
theorem compact_limit (c : GlobalCache K V) :
    (global_cache_compact_order c).limit = c.limit := by
  unfold global_cache_compact_order
  split <;> rfl

omit [DecidableEq K] in
theorem compact_wf (c : GlobalCache K V) (h : GlobalWF c) :
    GlobalWF (global_cache_compact_order c) := by
  unfold global_cache_compact_order
  split
  · exact h
  · refine ⟨?_, ?_⟩
    · dsimp only
      rw [List.drop_zero]
      exact h.1
    · dsimp only
      exact Nat.zero_le _

omit [DecidableEq K] in
theorem wf_break_iff (c : GlobalCache K V) (h : GlobalWF c) :
    c.order.length ≤ c.head ↔ c.cache = [] := by
  constructor
  · intro hle
    have hdrop : c.order.drop c.head = [] := List.drop_eq_nil_iff.mpr hle
    rw [h.1] at hdrop
    exact List.map_eq_nil_iff.mp hdrop
  · intro hnil
    have hdrop : c.order.drop c.head = [] := by rw [h.1, hnil]; rfl
    exact List.drop_eq_nil_iff.mp hdrop

omit [DecidableEq K] in
theorem wf_cache_length (c : GlobalCache K V) (h : GlobalWF c) :
    c.cache.length = c.order.length - c.head := by
  have hlen := congrArg List.length h.1
  rw [List.length_drop, List.length_map] at hlen
  omega

theorem evict_one_nil (c : GlobalCache K V) (h : GlobalWF c) (hnil : c.cache = []) :
    (global_cache_evict_one c).cache = [] ∧ GlobalWF (global_cache_evict_one c) ∧
      (global_cache_evict_one c).limit = c.limit := by
  have hdrop : c.order.drop c.head = [] := by rw [h.1, hnil]; rfl
  have hle : c.order.length ≤ c.head := List.drop_eq_nil_iff.mp hdrop
  unfold global_cache_evict_one
  rw [hdrop]
  dsimp only [evictScan]
  have hmax : max c.head c.order.length = c.head := by omega
  rw [hmax]
  have heta : ({ c with head := c.head } : GlobalCache K V) = c := rfl
  rw [heta]
  exact ⟨by rw [compact_cache]; exact hnil, compact_wf c h, compact_limit c⟩

theorem evict_one_cons (c : GlobalCache K V) (k : K) (v : V) (rest : List (K × V))
    (h : GlobalWF c) (hcons : c.cache = (k, v) :: rest) :
    (global_cache_evict_one c).cache = rest ∧ GlobalWF (global_cache_evict_one c) ∧
      (global_cache_evict_one c).limit = c.limit := by
  have hdrop : c.order.drop c.head = some k :: rest.map (fun kv => some kv.1) := by
    rw [h.1, hcons]; rfl
  have hheadlt : c.head < c.order.length := by
    by_contra hge
    rw [List.drop_eq_nil_iff.mpr (by omega)] at hdrop
    exact List.noConfusion hdrop
  unfold global_cache_evict_one
  rw [hdrop]
  dsimp only [evictScan]
  have hdel : dict_del c.cache k = rest := by
    rw [hcons]
    unfold dict_del
    exact List.eraseP_cons_of_pos (by simp)
  have hset : (c.order.set (c.head + 0) none).drop (c.head + 0 + 1) =
      c.order.drop (c.head + 1) := by
    simp [List.drop_set]
  have htail : c.order.drop (c.head + 1) = rest.map (fun kv => some kv.1) := by
    rw [← List.tail_drop, hdrop]
    rfl
  have hwf' : GlobalWF ({ c with
      cache := dict_del c.cache k
      order := c.order.set (c.head + 0) none
      head := c.head + 0 + 1 } : GlobalCache K V) := by
    refine ⟨?_, ?_⟩
    · dsimp only
      rw [hset, htail, hdel]
    · dsimp only
      rw [List.length_set]
      omega
  refine ⟨?_, compact_wf _ hwf', ?_⟩
  · rw [compact_cache]
    dsimp only
    exact hdel
  · rw [compact_limit]

theorem globalTrimLoop_spec (limit : Nat) :
    ∀ (fuel : Nat) (c : GlobalCache K V), GlobalWF c →
      c.cache.length ≤ limit + fuel →
      (globalTrimLoop fuel limit c).cache = c.cache.drop (c.cache.length - limit) ∧
        GlobalWF (globalTrimLoop fuel limit c) ∧
        (globalTrimLoop fuel limit c).limit = c.limit := by
  intro fuel
  induction fuel with
  | zero =>
    intro c hwf hlen
    have h0 : c.cache.length - limit = 0 := by omega
    rw [h0, List.drop_zero]
    exact ⟨rfl, hwf, rfl⟩
  | succ fuel ih =>
    intro c hwf hlen
    simp only [globalTrimLoop]
    by_cases hstop : c.cache.length ≤ limit
    · rw [if_pos hstop]
      have h0 : c.cache.length - limit = 0 := by omega
      rw [h0, List.drop_zero]
      exact ⟨rfl, hwf, rfl⟩
    · rw [if_neg hstop]
      cases hcons : c.cache with
      | nil => rw [hcons] at hstop; simp at hstop
      | cons kv rest' =>
        obtain ⟨hc', hwf', hlim'⟩ := evict_one_cons c kv.1 kv.2 rest' hwf (by rw [hcons])
        by_cases hbreak : (global_cache_evict_one c).order.length ≤
            (global_cache_evict_one c).head
        · rw [if_pos hbreak]
          have hrest : rest' = [] := by
            rw [← hc']
            exact (wf_break_iff _ hwf').mp hbreak
          subst hrest
          have hlen1 : c.cache.length = 1 := by rw [hcons]; rfl
          have hlim0 : limit = 0 := by omega
          subst hlim0
          refine ⟨?_, hwf', hlim'⟩
          rw [hc']
          rfl
        · rw [if_neg hbreak]
          have hlenc : c.cache.length = rest'.length + 1 := by rw [hcons]; rfl
          have hlen' : (global_cache_evict_one c).cache.length ≤ limit + fuel := by
            rw [hc']
            omega
          obtain ⟨ih1, ih2, ih3⟩ := ih (global_cache_evict_one c) hwf' hlen'
          refine ⟨?_, ih2, ih3.trans hlim'⟩
          rw [ih1, hc']
          have hidx : (kv :: rest').length - limit = (rest'.length - limit) + 1 := by
            simp only [List.length_cons]
            omega
          rw [hidx, List.drop_succ_cons]

theorem global_cache_trim_spec (c : GlobalCache K V) (l : Nat) (hwf : GlobalWF c)
    (hlim : c.limit = some l) :
    (global_cache_trim c).cache = c.cache.drop (c.cache.length - l) ∧
      GlobalWF (global_cache_trim c) ∧ (global_cache_trim c).limit = some l := by
  obtain ⟨h1, h2, h3⟩ :=
    globalTrimLoop_spec l (c.order.length + 1) c hwf
      (by have := wf_cache_length c hwf; omega)
  unfold global_cache_trim
  rw [hlim]
  dsimp only
  exact ⟨h1, h2, h3.trans hlim⟩

theorem global_cache_trim_none (c : GlobalCache K V) (hlim : c.limit = none) :
    global_cache_trim c = c := by
  unfold global_cache_trim
  rw [hlim]

theorem global_insert_wf (c : GlobalCache K V) (k : K) (v : V) (hwf : GlobalWF c)
    (hfind : dict_lookup c.cache k = none) :
    (global_insert_entry c k v).cache = c.cache ++ [(k, v)] ∧
      GlobalWF (global_insert_entry c k v) ∧
      (global_insert_entry c k v).limit = c.limit := by
  have hkeys := (dict_lookup_eq_none_iff c.cache k).mp hfind
  have hset := mapping_set_of_not_mem c.cache k v hkeys
  refine ⟨hset, ⟨?_, ?_⟩, rfl⟩
  · dsimp only [global_insert_entry]
    rw [hset, List.drop_append_of_le_length hwf.2, hwf.1, List.map_append]
    rfl
  · dsimp only [global_insert_entry]
    rw [List.length_append]
    have := hwf.2
    omega

theorem global_compile_unhashable (c : GlobalCache K V) (k : K) (r : Option V) :
    global_cached_compile c false k r = ⟨r, true, c⟩ := by
  simp [global_cached_compile]

theorem global_compile_limit_zero (c : GlobalCache K V) (h : Bool) (k : K)
    (r : Option V) (hl : c.limit = some 0) :
    global_cached_compile c h k r = ⟨r, true, c⟩ := by
  simp [global_cached_compile, hl]

theorem global_compile_hit (c : GlobalCache K V) (k : K) (v : V) (r : Option V)
    (hl : c.limit ≠ some 0) (hfind : dict_lookup c.cache k = some v) :
    global_cached_compile c true k r = ⟨some v, false, c⟩ := by
  simp [global_cached_compile, hl, hfind]

theorem global_compile_fail (c : GlobalCache K V) (k : K)
    (hl : c.limit ≠ some 0) (hfind : dict_lookup c.cache k = none) :
    global_cached_compile c true k none = ⟨none, true, c⟩ := by
  simp [global_cached_compile, hl, hfind]

theorem global_compile_miss_unbounded (c : GlobalCache K V) (k : K) (v : V)
    (hl : c.limit = none) (hfind : dict_lookup c.cache k = none) :
    global_cached_compile c true k (some v) = ⟨some v, true, global_insert_entry c k v⟩ := by
  have hne : c.limit ≠ some 0 := by rw [hl]; simp
  simp [global_cached_compile, hne, hfind, hl]

theorem global_compile_miss_bounded (c : GlobalCache K V) (k : K) (v : V) (n : Nat)
    (hlim : c.limit = some (n + 1)) (hfind : dict_lookup c.cache k = none) :
    global_cached_compile c true k (some v) =
      ⟨some v, true,
        global_cache_trim (global_insert_entry (global_cache_trim c) k v)⟩ := by
  have hne : c.limit ≠ some 0 := by rw [hlim]; simp
  simp [global_cached_compile, hne, hfind, hlim]

theorem global_miss_state (c : GlobalCache K V) (k : K) (v : V) (n : Nat)
    (hwf : GlobalWF c) (hlim : c.limit = some (n + 1))
    (hfind : dict_lookup c.cache k = none) (hbound : c.cache.length ≤ n + 1) :
    (global_cached_compile c true k (some v)).state.cache =
        (c.cache ++ [(k, v)]).drop (c.cache.length + 1 - (n + 1)) ∧
      GlobalWF (global_cached_compile c true k (some v)).state ∧
      (global_cached_compile c true k (some v)).state.limit = some (n + 1) ∧
      (global_cached_compile c true k (some v)).invoked = true ∧
      (global_cached_compile c true k (some v)).result = some v := by
  rw [global_compile_miss_bounded c k v n hlim hfind]
  dsimp only
  obtain ⟨t1c, t1wf, t1lim⟩ := global_cache_trim_spec c (n + 1) hwf hlim
  have hdrop0 : c.cache.length - (n + 1) = 0 := by omega
  rw [hdrop0, List.drop_zero] at t1c
  have hfind1 : dict_lookup (global_cache_trim c).cache k = none := by
    rw [t1c]; exact hfind
  obtain ⟨i1c, i1wf, i1lim⟩ := global_insert_wf (global_cache_trim c) k v t1wf hfind1
  have hlim2 : (global_insert_entry (global_cache_trim c) k v).limit = some (n + 1) := by
    rw [i1lim, t1lim]
  obtain ⟨t2c, t2wf, t2lim⟩ := global_cache_trim_spec _ (n + 1) i1wf hlim2
  refine ⟨?_, t2wf, t2lim, rfl, rfl⟩
  rw [t2c, i1c, t1c]
  congr 1
  rw [List.length_append]
  rfl

theorem globalStep_inv (c : GlobalCache K V) (op : CacheOp K V)
    (hinv : GlobalInv c) : GlobalInv (globalStep c op) := by
  obtain ⟨hwf, hbound⟩ := hinv
  cases op with
  | compileOp k h r =>
    simp only [globalStep]
    match h with
    | false => rw [global_compile_unhashable]; exact ⟨hwf, hbound⟩
    | true =>
      by_cases hl0 : c.limit = some 0
      · rw [global_compile_limit_zero c true k r hl0]; exact ⟨hwf, hbound⟩
      · cases hfind : dict_lookup c.cache k with
        | some v => rw [global_compile_hit c k v r hl0 hfind]; exact ⟨hwf, hbound⟩
        | none =>
          cases r with
          | none => rw [global_compile_fail c k hl0 hfind]; exact ⟨hwf, hbound⟩
          | some v =>
            cases hlim : c.limit with
            | none =>
              rw [global_compile_miss_unbounded c k v hlim hfind]
              obtain ⟨_, iwf, ilim⟩ := global_insert_wf c k v hwf hfind
              refine ⟨iwf, ?_⟩
              intro m hm
              rw [ilim, hlim] at hm
              exact absurd hm (by simp)
            | some mm =>
              match mm with
              | 0 => exact absurd hlim hl0
              | n + 1 =>
                obtain ⟨sc, swf, slim, _, _⟩ :=
                  global_miss_state c k v n hwf hlim hfind (hbound _ hlim)
                refine ⟨swf, ?_⟩
                intro m hm
                rw [slim] at hm
                have hm' : m = n + 1 := (Option.some.inj hm).symm
                rw [sc, List.length_drop, List.length_append]
                simp only [List.length_cons, List.length_nil]
                omega
  | setLimitOp l =>
    simp only [globalStep, global_set_cache_limit]
    match l with
    | some 0 =>
      refine ⟨⟨rfl, Nat.le_refl 0⟩, ?_⟩
      intro m hm
      have : m = 0 := (Option.some.inj hm).symm
      simp [this]
    | some (l + 1) =>
      have hwf' : GlobalWF ({ c with limit := some (l + 1) } : GlobalCache K V) :=
        ⟨hwf.1, hwf.2⟩
      obtain ⟨tc, twf, tlim⟩ :=
        global_cache_trim_spec ({ c with limit := some (l + 1) }) (l + 1) hwf' rfl
      refine ⟨twf, ?_⟩
      intro m hm
      rw [tlim] at hm
      have hm' : m = l + 1 := (Option.some.inj hm).symm
      rw [tc, List.length_drop]
      omega
    | none =>
      refine ⟨⟨hwf.1, hwf.2⟩, ?_⟩
      intro m hm
      exact absurd hm (by simp)
  | clearOp =>
    refine ⟨⟨rfl, Nat.le_refl 0⟩, ?_⟩
    intro m _
    simp [globalStep, global_clear_cache]

theorem globalRun_inv :
    ∀ (ops : List (CacheOp K V)) (c : GlobalCache K V), GlobalInv c →
      GlobalInv (globalRun c ops) := by
  intro ops
  induction ops with
  | nil => intro c hinv; exact hinv
  | cons op rest ih =>
    intro c hinv
    rw [globalRun, List.foldl_cons]
    exact ih (globalStep c op) (globalStep_inv c op hinv)

omit [DecidableEq K] in
theorem lastN_length_le (n : Nat) (l : List K) : (lastN n l).length ≤ n := by
  unfold lastN
  rw [List.length_drop]
  omega

theorem globalInsertRun_fifo (f : K → V) (n : Nat) :
    ∀ (calls : List K) (c : GlobalCache K V) (ms : List K), GlobalWF c →
      c.limit = some (n + 1) →
      c.cache = (lastN (n + 1) ms).map (fun k => (k, f k)) →
      (globalInsertRun f c calls).cache =
        (lastN (n + 1) (ms ++ globalMissSeq f c calls)).map (fun k => (k, f k)) := by
  intro calls
  induction calls with
  | nil =>
    intro c ms _ _ hcache
    simpa [globalInsertRun, globalMissSeq] using hcache
  | cons k rest ih =>
    intro c ms hwf hlim hcache
    cases hfind : dict_lookup c.cache k with
    | some v =>
      have hstep := global_compile_hit c k v (some (f k)) (by rw [hlim]; simp) hfind
      simp only [globalInsertRun, globalMissSeq, hstep, Bool.false_eq_true, if_false]
      exact ih c ms hwf hlim hcache
    | none =>
      have hbound : c.cache.length ≤ n + 1 := by
        rw [hcache, List.length_map]
        exact lastN_length_le _ _
      obtain ⟨sc, swf, slim, sinv, _⟩ :=
        global_miss_state c k (f k) n hwf hlim hfind hbound
      have hstate_cache :
          (global_cached_compile c true k (some (f k))).state.cache =
            (lastN (n + 1) (ms ++ [k])).map (fun k => (k, f k)) := by
        rw [sc, hcache, List.length_map]
        have hidx : (lastN (n + 1) ms).length + 1 - (n + 1) =
            (lastN (n + 1) ms).length - n := by omega
        rw [hidx, List.drop_append_of_le_length (by rw [List.length_map]; omega)]
        rw [← List.map_drop]
        rw [show ([(k, f k)] : List (K × V)) = [k].map (fun k => (k, f k)) from rfl]
        rw [← List.map_append, lastN_drop_append]
      simp only [globalInsertRun, globalMissSeq]
      rw [sinv]
      simp only [if_true]
      rw [ih ((global_cached_compile c true k (some (f k))).state) (ms ++ [k]) swf slim
        hstate_cache]
      congr 2
      simp

end GlobalLemmas

/-- C1: starting from the freshly initialised caches, after every sequence
of cached_compile, set-capacity and clear operations, whenever the current
capacity is a bounded `n ≥ 0`, the number of resident pattern-cache entries
is at most `n`, under both the thread-confined and the shared strategy. -/
theorem C1_capacity_bound (K V : Type) [DecidableEq K] :
    (∀ (ops : List (CacheOp K V)) (n : Nat),
        (threadRun threadInit ops).limit = some n →
        (threadRun threadInit ops).cache.length ≤ n)
    ∧ (∀ (ops : List (CacheOp K V)) (n : Nat),
        (globalRun globalInit ops).limit = some n →
        (globalRun globalInit ops).cache.length ≤ n) := by
  constructor
  · intro ops n hn
    have h0 : ThreadBound (threadInit : ThreadCache K V) := by
      intro m _
      simp [threadInit]
    exact threadRun_bound ops threadInit h0 n hn
  · intro ops n hn
    have h0 : GlobalInv (globalInit : GlobalCache K V) := by
      refine ⟨⟨rfl, Nat.le_refl 0⟩, ?_⟩
      intro m _
      simp [globalInit]
    exact (globalRun_inv ops globalInit h0).2 n hn

/-- Witness for C1: a single insertion under the default capacities. -/
theorem C1_capacity_bound_witness :
    (threadRun (threadInit : ThreadCache Nat Nat)
        [CacheOp.compileOp 0 true (some 5)]).cache.length ≤ 32
    ∧ (globalRun (globalInit : GlobalCache Nat Nat)
        [CacheOp.compileOp 0 true (some 5)]).cache.length ≤ 128 :=
  ⟨(C1_capacity_bound Nat Nat).1 [CacheOp.compileOp 0 true (some 5)] 32 (by decide),
   (C1_capacity_bound Nat Nat).2 [CacheOp.compileOp 0 true (some 5)] 128 (by decide)⟩

/-- C2: FIFO eviction.  A cache hit returns the cached value and leaves the
cache untouched (no promotion), and for every capacity `n + 1` and every
call sequence on an initially empty cache whose misses are distinct keys
K1..Km with `m > n + 1`, the resident entries afterwards are exactly the
last `n + 1` missed keys, in insertion order, under both strategies.  In
particular with capacity 2, inserting 0, 1, 2 leaves exactly entries for
1, 2, and then inserting 3 leaves exactly entries for 2, 3. -/
theorem C2_fifo_eviction (K V : Type) [DecidableEq K] :
    (∀ (tc : ThreadCache K V) (k : K) (v : V) (r : Option V), tc.limit ≠ some 0 →
        dict_lookup tc.cache k = some v →
        thread_cached_compile tc true k r = ⟨some v, false, tc⟩)
    ∧ (∀ (c : GlobalCache K V) (k : K) (v : V) (r : Option V), c.limit ≠ some 0 →
        dict_lookup c.cache k = some v →
        global_cached_compile c true k r = ⟨some v, false, c⟩)
    ∧ (∀ (n : Nat) (f : K → V) (calls : List K),
        (threadMissSeq f ⟨[], some (n + 1)⟩ calls).Nodup →
        n + 1 < (threadMissSeq f ⟨[], some (n + 1)⟩ calls).length →
        (threadInsertRun f ⟨[], some (n + 1)⟩ calls).cache =
          (lastN (n + 1) (threadMissSeq f ⟨[], some (n + 1)⟩ calls)).map
            (fun k => (k, f k)))
    ∧ (∀ (n : Nat) (f : K → V) (calls : List K),
        (globalMissSeq f ⟨[], [], 0, some (n + 1)⟩ calls).Nodup →
        n + 1 < (globalMissSeq f ⟨[], [], 0, some (n + 1)⟩ calls).length →
        (globalInsertRun f ⟨[], [], 0, some (n + 1)⟩ calls).cache =
          (lastN (n + 1) (globalMissSeq f ⟨[], [], 0, some (n + 1)⟩ calls)).map
            (fun k => (k, f k)))
    ∧ (threadInsertRun (fun k => 10 + k) ⟨[], some 2⟩ [0, 1, 2]).cache =
        [(1, 11), (2, 12)]
    ∧ (threadInsertRun (fun k => 10 + k) ⟨[], some 2⟩ [0, 1, 2, 3]).cache =
        [(2, 12), (3, 13)]
    ∧ (globalInsertRun (fun k => 10 + k) ⟨[], [], 0, some 2⟩ [0, 1, 2]).cache =
        [(1, 11), (2, 12)]
    ∧ (globalInsertRun (fun k => 10 + k) ⟨[], [], 0, some 2⟩ [0, 1, 2, 3]).cache =
        [(2, 12), (3, 13)] := by
  refine ⟨?_, ?_, ?_, ?_, by decide, by decide, by decide, by decide⟩
  · intro tc k v r hl hfind
    exact thread_compile_hit tc k v r hl hfind
  · intro c k v r hl hfind
    exact global_compile_hit c k v r hl hfind
  · intro n f calls _ _
    simpa [lastN] using threadInsertRun_fifo f n calls []
  · intro n f calls _ _
    simpa [lastN] using
      globalInsertRun_fifo f n calls ⟨[], [], 0, some (n + 1)⟩ [] ⟨rfl, Nat.le_refl 0⟩ rfl
        (by simp [lastN])

/-- Witness for C2: the hit lemma at a one-entry cache, and the FIFO
property at capacity 2 with misses 0, 1, 2. -/
theorem C2_fifo_eviction_witness :
    thread_cached_compile (⟨[(7, 5)], some 2⟩ : ThreadCache Nat Nat) true 7 (some 9) =
        ⟨some 5, false, ⟨[(7, 5)], some 2⟩⟩
    ∧ (threadInsertRun (fun k => 10 + k) (⟨[], some 2⟩ : ThreadCache Nat Nat)
          [0, 1, 2]).cache =
        (lastN 2 (threadMissSeq (fun k => 10 + k) (⟨[], some 2⟩ : ThreadCache Nat Nat)
          [0, 1, 2])).map (fun k => (k, 10 + k))
    ∧ (globalInsertRun (fun k => 10 + k) (⟨[], [], 0, some 2⟩ : GlobalCache Nat Nat)
          [0, 1, 2]).cache =
        (lastN 2 (globalMissSeq (fun k => 10 + k)
          (⟨[], [], 0, some 2⟩ : GlobalCache Nat Nat) [0, 1, 2])).map
          (fun k => (k, 10 + k)) :=
  ⟨(C2_fifo_eviction Nat Nat).1 ⟨[(7, 5)], some 2⟩ 7 5 (some 9) (by decide) (by decide),
   (C2_fifo_eviction Nat Nat).2.2.1 1 (fun k => 10 + k) [0, 1, 2] (by decide) (by decide),
   (C2_fifo_eviction Nat Nat).2.2.2.1 1 (fun k => 10 + k) [0, 1, 2] (by decide) (by decide)⟩

/-- Counterexample for C4 as stated: a thread-confined cache holding the
two entries for keys 0 and 1 shrunk with `set_cache_limit(1)` is left with
zero entries, not the claimed one entry — `mapping_ensure_capacity` evicts
while `size >= limit`. -/
theorem C4_counterexample :
    ¬ (thread_set_cache_limit (⟨[(0, 10), (1, 11)], none⟩ : ThreadCache Nat Nat)
        (some 1)).cache.length = 1 := by
  decide

/-- C4 amended: shrinking the capacity to `0 < n < m` immediately evicts
oldest-first, down to exactly `n` entries on the shared cache but down to
`n - 1` entries on the thread-confined cache (its eviction loop runs while
`size >= limit`); capacity 0 clears the cache entirely and makes every
subsequent `cached_compile` call a passthrough that invokes the compile
service even for a repeated key while the capacity stays 0; an unbounded
capacity disables eviction. -/
theorem C4_set_capacity (K V : Type) [DecidableEq K] :
    (∀ (tc : ThreadCache K V) (n : Nat),
        (thread_set_cache_limit tc (some (n + 1))).cache =
          tc.cache.drop (tc.cache.length - n))
    ∧ (∀ (c : GlobalCache K V) (n : Nat), GlobalWF c →
        (global_set_cache_limit c (some (n + 1))).cache =
          c.cache.drop (c.cache.length - (n + 1)))
    ∧ (∀ (tc : ThreadCache K V) (n : Nat), n + 1 < tc.cache.length →
        (thread_set_cache_limit tc (some (n + 1))).cache.length = n)
    ∧ (∀ (c : GlobalCache K V) (n : Nat), GlobalWF c → n + 1 < c.cache.length →
        (global_set_cache_limit c (some (n + 1))).cache.length = n + 1)
    ∧ (∀ tc : ThreadCache K V, (thread_set_cache_limit tc (some 0)).cache = [])
    ∧ (∀ c : GlobalCache K V,
        global_set_cache_limit c (some 0) = ⟨[], [], 0, some 0⟩)
    ∧ (∀ (tc : ThreadCache K V) (h : Bool) (k : K) (r : Option V),
        tc.limit = some 0 → thread_cached_compile tc h k r = ⟨r, true, tc⟩)
    ∧ (∀ (c : GlobalCache K V) (h : Bool) (k : K) (r : Option V),
        c.limit = some 0 → global_cached_compile c h k r = ⟨r, true, c⟩)
    ∧ (∀ tc : ThreadCache K V, (thread_set_cache_limit tc none).cache = tc.cache)
    ∧ (∀ (tc : ThreadCache K V) (h : Bool) (k : K) (r : Option V), tc.limit = none →
        ∀ e ∈ tc.cache, e ∈ (thread_cached_compile tc h k r).state.cache)
    ∧ (∀ (c : GlobalCache K V) (h : Bool) (k : K) (r : Option V), c.limit = none →
        ∀ e ∈ c.cache, e ∈ (global_cached_compile c h k r).state.cache) := by
  refine ⟨?_, ?_, ?_, ?_, ?_, ?_, ?_, ?_, ?_, ?_, ?_⟩
  · intro tc n
    simp only [thread_set_cache_limit]
    exact mapping_ensure_capacity_some tc.cache n
  · intro c n hwf
    simp only [global_set_cache_limit]
    exact
      (global_cache_trim_spec ({ c with limit := some (n + 1) }) (n + 1)
        ⟨hwf.1, hwf.2⟩ rfl).1
  · intro tc n hlen
    simp only [thread_set_cache_limit]
    rw [mapping_ensure_capacity_some, List.length_drop]
    omega
  · intro c n hwf hlen
    simp only [global_set_cache_limit]
    rw [(global_cache_trim_spec ({ c with limit := some (n + 1) }) (n + 1)
      ⟨hwf.1, hwf.2⟩ rfl).1, List.length_drop]
    dsimp only
    omega
  · intro tc
    rfl
  · intro c
    rfl
  · intro tc h k r hl
    exact thread_compile_limit_zero tc h k r hl
  · intro c h k r hl
    exact global_compile_limit_zero c h k r hl
  · intro tc
    rfl
  · intro tc h k r hl e he
    match h with
    | false => rw [thread_compile_unhashable]; exact he
    | true =>
      have hne : tc.limit ≠ some 0 := by rw [hl]; simp
      cases hfind : dict_lookup tc.cache k with
      | some v => rw [thread_compile_hit tc k v r hne hfind]; exact he
      | none =>
        cases r with
        | none => rw [thread_compile_fail tc k hne hfind]; exact he
        | some v =>
          rw [thread_compile_miss_unbounded tc k v hl hfind]
          dsimp only
          rw [mapping_set_of_not_mem _ _ _ ((dict_lookup_eq_none_iff _ _).mp hfind)]
          exact List.mem_append_left _ he
  · intro c h k r hl e he
    match h with
    | false => rw [global_compile_unhashable]; exact he
    | true =>
      have hne : c.limit ≠ some 0 := by rw [hl]; simp
      cases hfind : dict_lookup c.cache k with
      | some v => rw [global_compile_hit c k v r hne hfind]; exact he
      | none =>
        cases r with
        | none => rw [global_compile_fail c k hne hfind]; exact he
        | some v =>
          rw [global_compile_miss_unbounded c k v hl hfind]
          dsimp only [global_insert_entry]
          rw [mapping_set_of_not_mem _ _ _ ((dict_lookup_eq_none_iff _ _).mp hfind)]
          exact List.mem_append_left _ he

/-- Witness for C4 amended: a three-entry cache shrunk to capacity 2 keeps
one entry on the thread-confined side and two on the shared side, and the
capacity-0 passthrough invokes the compile service on a repeated key. -/
theorem C4_set_capacity_witness :
    (thread_set_cache_limit
        (⟨[(0, 10), (1, 11), (2, 12)], none⟩ : ThreadCache Nat Nat)
        (some 2)).cache.length = 1
    ∧ (global_set_cache_limit
        (⟨[(0, 10), (1, 11), (2, 12)], [some 0, some 1, some 2], 0, none⟩ :
          GlobalCache Nat Nat) (some 2)).cache.length = 2
    ∧ thread_cached_compile (⟨[], some 0⟩ : ThreadCache Nat Nat) true 7 (some 3) =
        ⟨some 3, true, ⟨[], some 0⟩⟩ :=
  ⟨(C4_set_capacity Nat Nat).2.2.1 ⟨[(0, 10), (1, 11), (2, 12)], none⟩ 1 (by decide),
   (C4_set_capacity Nat Nat).2.2.2.1
     ⟨[(0, 10), (1, 11), (2, 12)], [some 0, some 1, some 2], 0, none⟩ 1
     (by decide) (by decide),
   (C4_set_capacity Nat Nat).2.2.2.2.2.2.1 ⟨[], some 0⟩ true 7 (some 3) (by decide)⟩

/-- C5: in a single-threaded run with a positive bounded capacity and a
successful compile, two consecutive `cached_compile` calls with equal keys
return the same cached value both times, and the second call never invokes
the compile service (so it is invoked at most once across the two calls),
under both strategies. -/
theorem C5_idempotent_lookup (K V : Type) [DecidableEq K] :
    (∀ (tc : ThreadCache K V) (n : Nat) (k : K) (v : V) (r2 : Option V),
        tc.limit = some (n + 1) →
        (thread_cached_compile (thread_cached_compile tc true k (some v)).state
            true k r2).invoked = false
        ∧ (thread_cached_compile (thread_cached_compile tc true k (some v)).state
            true k r2).result = (thread_cached_compile tc true k (some v)).result
        ∧ ∃ w, (thread_cached_compile tc true k (some v)).result = some w)
    ∧ (∀ (c : GlobalCache K V) (n : Nat) (k : K) (v : V) (r2 : Option V),
        GlobalWF c → c.limit = some (n + 1) → c.cache.length ≤ n + 1 →
        (global_cached_compile (global_cached_compile c true k (some v)).state
            true k r2).invoked = false
        ∧ (global_cached_compile (global_cached_compile c true k (some v)).state
            true k r2).result = (global_cached_compile c true k (some v)).result
        ∧ ∃ w, (global_cached_compile c true k (some v)).result = some w) := by
  constructor
  · intro tc n k v r2 hlim
    have hne : tc.limit ≠ some 0 := by rw [hlim]; simp
    cases hfind : dict_lookup tc.cache k with
    | some v0 =>
      rw [thread_compile_hit tc k v0 (some v) hne hfind]
      dsimp only
      rw [thread_compile_hit tc k v0 r2 hne hfind]
      exact ⟨rfl, rfl, v0, rfl⟩
    | none =>
      rw [thread_compile_miss_bounded tc k v n hlim hfind]
      dsimp only
      have hkeys : k ∉ (tc.cache.drop (tc.cache.length - n)).map Prod.fst :=
        not_mem_keys_drop _ _ _ ((dict_lookup_eq_none_iff _ _).mp hfind)
      have hfind2 :
          dict_lookup (mapping_set (tc.cache.drop (tc.cache.length - n)) k v) k =
            some v := by
        rw [mapping_set_of_not_mem _ _ _ hkeys]
        exact dict_lookup_append_right _ _ _ hkeys
      rw [thread_compile_hit _ k v r2 (by rw [hlim]; simp) hfind2]
      exact ⟨rfl, rfl, v, rfl⟩
  · intro c n k v r2 hwf hlim hbound
    cases hfind : dict_lookup c.cache k with
    | some v0 =>
      have hne : c.limit ≠ some 0 := by rw [hlim]; simp
      rw [global_compile_hit c k v0 (some v) hne hfind]
      dsimp only
      rw [global_compile_hit c k v0 r2 hne hfind]
      exact ⟨rfl, rfl, v0, rfl⟩
    | none =>
      obtain ⟨sc, _, slim, _, sres⟩ := global_miss_state c k v n hwf hlim hfind hbound
      have hkeys : k ∉ (c.cache.drop (c.cache.length + 1 - (n + 1))).map Prod.fst :=
        not_mem_keys_drop _ _ _ ((dict_lookup_eq_none_iff _ _).mp hfind)
      have hfind2 :
          dict_lookup (global_cached_compile c true k (some v)).state.cache k =
            some v := by
        rw [sc, List.drop_append_of_le_length (by omega)]
        exact dict_lookup_append_right _ _ _ hkeys
      rw [global_compile_hit _ k v r2 (by rw [slim]; simp) hfind2]
      rw [sres]
      exact ⟨rfl, rfl, v, rfl⟩

/-- Witness for C5: two consecutive calls with key 0 on an empty capacity-1
cache under each strategy. -/
theorem C5_idempotent_lookup_witness :
    (thread_cached_compile
        (thread_cached_compile (⟨[], some 1⟩ : ThreadCache Nat Nat) true 0 (some 5)).state
        true 0 none).invoked = false
    ∧ (global_cached_compile
        (global_cached_compile (⟨[], [], 0, some 1⟩ : GlobalCache Nat Nat) true 0
          (some 5)).state true 0 none).invoked = false :=
  ⟨((C5_idempotent_lookup Nat Nat).1 ⟨[], some 1⟩ 0 0 5 none (by decide)).1,
   ((C5_idempotent_lookup Nat Nat).2 ⟨[], [], 0, some 1⟩ 0 0 5 none
     (by decide) (by decide) (by decide)).1⟩

/-- C8: a `cached_compile` call whose compile service fails leaves the
cache contents untouched, and whenever the compile service was actually
consulted the failure is propagated to the caller unchanged, under both
strategies. -/
theorem C8_failed_compile_not_cached (K V : Type) [DecidableEq K] :
    (∀ (tc : ThreadCache K V) (h : Bool) (k : K),
        (thread_cached_compile tc h k none).state = tc
        ∧ ((thread_cached_compile tc h k none).invoked = true →
            (thread_cached_compile tc h k none).result = none))
    ∧ (∀ (c : GlobalCache K V) (h : Bool) (k : K),
        (global_cached_compile c h k none).state = c
        ∧ ((global_cached_compile c h k none).invoked = true →
            (global_cached_compile c h k none).result = none)) := by
  constructor
  · intro tc h k
    match h with
    | false => rw [thread_compile_unhashable]; exact ⟨rfl, fun _ => rfl⟩
    | true =>
      by_cases hl0 : tc.limit = some 0
      · rw [thread_compile_limit_zero tc true k none hl0]
        exact ⟨rfl, fun _ => rfl⟩
      · cases hfind : dict_lookup tc.cache k with
        | some v =>
          rw [thread_compile_hit tc k v none hl0 hfind]
          exact ⟨rfl, fun hinv => absurd hinv (by simp)⟩
        | none =>
          rw [thread_compile_fail tc k hl0 hfind]
          exact ⟨rfl, fun _ => rfl⟩
  · intro c h k
    match h with
    | false => rw [global_compile_unhashable]; exact ⟨rfl, fun _ => rfl⟩
    | true =>
      by_cases hl0 : c.limit = some 0
      · rw [global_compile_limit_zero c true k none hl0]
        exact ⟨rfl, fun _ => rfl⟩
      · cases hfind : dict_lookup c.cache k with
        | some v =>
          rw [global_compile_hit c k v none hl0 hfind]
          exact ⟨rfl, fun hinv => absurd hinv (by simp)⟩
        | none =>
          rw [global_compile_fail c k hl0 hfind]
          exact ⟨rfl, fun _ => rfl⟩

/-- Witness for C8: a failing compile against a one-entry cache leaves the
state unchanged and propagates the failure under both strategies. -/
theorem C8_failed_compile_not_cached_witness :
    (thread_cached_compile (⟨[(1, 5)], some 32⟩ : ThreadCache Nat Nat) true 0
        none).state = ⟨[(1, 5)], some 32⟩
    ∧ (global_cached_compile (⟨[(1, 5)], [some 1], 0, some 128⟩ : GlobalCache Nat Nat)
        true 0 none).result = none :=
  ⟨((C8_failed_compile_not_cached Nat Nat).1 ⟨[(1, 5)], some 32⟩ true 0).1,
   ((C8_failed_compile_not_cached Nat Nat).2 ⟨[(1, 5)], [some 1], 0, some 128⟩
     true 0).2 (by decide)⟩

/-- C10: a `cached_compile` call whose composite key is unhashable still
invokes the compile service and returns its result unchanged while leaving
the cache untouched, and a repeated call with the same key invokes the
service again, under both strategies. -/
theorem C10_unhashable_passthrough (K V : Type) [DecidableEq K] :
    (∀ (tc : ThreadCache K V) (k : K) (r : Option V),
        thread_cached_compile tc false k r = ⟨r, true, tc⟩)
    ∧ (∀ (c : GlobalCache K V) (k : K) (r : Option V),
        global_cached_compile c false k r = ⟨r, true, c⟩)
    ∧ (∀ (tc : ThreadCache K V) (k : K) (r1 r2 : Option V),
        thread_cached_compile (thread_cached_compile tc false k r1).state false k r2 =
          ⟨r2, true, tc⟩)
    ∧ (∀ (c : GlobalCache K V) (k : K) (r1 r2 : Option V),
        global_cached_compile (global_cached_compile c false k r1).state false k r2 =
          ⟨r2, true, c⟩) := by
  refine ⟨?_, ?_, ?_, ?_⟩
  · intro tc k r
    exact thread_compile_unhashable tc k r
  · intro c k r
    exact global_compile_unhashable c k r
  · intro tc k r1 r2
    rw [thread_compile_unhashable tc k r1]
    exact thread_compile_unhashable tc k r2
  · intro c k r1 r2
    rw [global_compile_unhashable c k r1]
    exact global_compile_unhashable c k r2

/-- Counterexample for C3 as stated: once the frontend coordinator in
pattern_cache.c is locked to the thread-local strategy, asking for the
global strategy raises a `RuntimeError` whose fixed message does not name
the currently locked strategy ("thread-local" does not occur in it). -/
theorem C3_counterexample :
    (cache_strategy_fn (lock_cache_strategy ⟨CacheStrategy.threadLocal, false⟩)
        "global").1 = StrategyCallResult.runtimeError FRONTEND_LOCK_MESSAGE
    ∧ containsChars (cache_strategy_name CacheStrategy.threadLocal).toList
        FRONTEND_LOCK_MESSAGE.toList = false := by
  constructor
  · rfl
  · decide

/-- C3 amended: a cache operation locks the strategy without changing it;
once locked, setting a different strategy fails with a `RuntimeError` and
leaves the strategy unchanged, while setting the already-locked strategy
succeeds as a no-op — in the backend (`module_set_cache_strategy`) the
error message names the currently locked strategy, whereas the frontend
(`cache_strategy_fn`) raises a fixed message that does not. -/
theorem C3_strategy_lock (s : StrategyState) :
    ((lock_cache_strategy s).locked = true
      ∧ (lock_cache_strategy s).current = s.current)
    ∧ ((mark_cache_strategy_locked s).locked = true
      ∧ (mark_cache_strategy_locked s).current = s.current)
    ∧ (s.locked = true →
        cache_strategy_fn s (cache_strategy_name s.current) =
          (StrategyCallResult.okName (cache_strategy_name s.current), s))
    ∧ (∀ (raw : String) (d : CacheStrategy), s.locked = true →
        parse_strategy raw = some d → d ≠ s.current →
        cache_strategy_fn s raw =
          (StrategyCallResult.runtimeError FRONTEND_LOCK_MESSAGE, s))
    ∧ (s.locked = true →
        module_set_cache_strategy s (cache_strategy_name s.current) =
          (StrategyCallResult.okNone, s))
    ∧ (∀ (raw : String) (d : CacheStrategy), s.locked = true →
        parse_strategy raw = some d → d ≠ s.current →
        module_set_cache_strategy s raw =
          (StrategyCallResult.runtimeError
            ("cache strategy already locked to '" ++
              cache_strategy_name s.current ++ "'"), s))
    ∧ containsChars (cache_strategy_name s.current).toList
        ("cache strategy already locked to '" ++
          cache_strategy_name s.current ++ "'").toList = true := by
  refine ⟨⟨rfl, rfl⟩, ⟨rfl, rfl⟩, ?_, ?_, ?_, ?_, ?_⟩
  · intro _
    cases hcur : s.current <;>
      simp [cache_strategy_fn, parse_strategy, cache_strategy_name, hcur]
  · intro raw d _ hparse hne
    have hfine : ¬ d = s.current := hne
    unfold cache_strategy_fn
    rw [hparse]
    dsimp only
    rw [if_neg hfine, if_pos (by assumption)]
  · intro hlock
    have hparse : parse_strategy (cache_strategy_name s.current) = some s.current := by
      cases s.current <;> decide
    unfold module_set_cache_strategy
    rw [hparse]
    dsimp only
    rw [if_neg (by simp)]
  · intro raw d hlock hparse hne
    unfold module_set_cache_strategy
    rw [hparse]
    dsimp only
    rw [if_pos ⟨hlock, hne⟩]
  · cases s.current <;> decide

/-- Witness for C3 amended: concrete calls against a locked thread-local
coordinator. -/
theorem C3_strategy_lock_witness :
    cache_strategy_fn (⟨CacheStrategy.threadLocal, true⟩ : StrategyState) "global" =
        (StrategyCallResult.runtimeError FRONTEND_LOCK_MESSAGE,
          ⟨CacheStrategy.threadLocal, true⟩)
    ∧ module_set_cache_strategy (⟨CacheStrategy.threadLocal, true⟩ : StrategyState)
        "global" =
        (StrategyCallResult.runtimeError
          "cache strategy already locked to 'thread-local'",
          ⟨CacheStrategy.threadLocal, true⟩)
    ∧ module_set_cache_strategy (⟨CacheStrategy.threadLocal, true⟩ : StrategyState)
        "thread-local" =
        (StrategyCallResult.okNone, ⟨CacheStrategy.threadLocal, true⟩) :=
  ⟨(C3_strategy_lock ⟨CacheStrategy.threadLocal, true⟩).2.2.2.1 "global"
      CacheStrategy.global rfl (by decide) (by decide),
   (C3_strategy_lock ⟨CacheStrategy.threadLocal, true⟩).2.2.2.2.2.1 "global"
      CacheStrategy.global rfl (by decide) (by decide),
   (C3_strategy_lock ⟨CacheStrategy.threadLocal, true⟩).2.2.2.2.1 rfl⟩

/-! ## Lemmas about the match-data scratch pool -/

theorem scanAcquire_found :
    ∀ (pre post : List MatchData) (e : MatchData) (required : Nat),
      (∀ x ∈ pre, x.ovec < required) → e.ovec ≥ required →
      scanAcquire (pre ++ e :: post) required = some (e, pre ++ post) := by
  intro pre
  induction pre with
  | nil =>
    intro post e required _ hfit
    simp only [List.nil_append, scanAcquire]
    rw [if_pos hfit]
  | cons y ys ih =>
    intro post e required hmiss hfit
    simp only [List.cons_append, scanAcquire]
    rw [if_neg (by have := hmiss y (List.mem_cons_self y ys); omega)]
    simp only [List.append_eq]
    rw [ih post e required (fun x hx => hmiss x (List.mem_cons_of_mem y hx)) hfit]

theorem scanAcquire_none :
    ∀ (entries : List MatchData) (required : Nat),
      (∀ x ∈ entries, x.ovec < required) → scanAcquire entries required = none := by
  intro entries
  induction entries with
  | nil => intro required _; rfl
  | cons y ys ih =>
    intro required hmiss
    simp only [scanAcquire]
    rw [if_neg (by have := hmiss y (List.mem_cons_self y ys); omega)]
    rw [ih required (fun x hx => hmiss x (List.mem_cons_of_mem y hx))]

/-- C7: scratch-pool acquisition.  The free list is scanned from the head
and the first entry whose recorded capacity satisfies the requirement is
unlinked and returned; when nothing satisfies the requirement and the pool
count has reached its capacity, the tail (structurally oldest) entry is
evicted and a fresh object sized exactly to the requirement is constructed,
falling back to the pattern-derived construction when exact sizing fails.
In particular, with pool capacity 1: acquiring 8 pairs from an empty pool
constructs a capacity-8 object; after releasing it, acquiring 4 returns
that same object; acquiring 16 while the pool holds the capacity-8 object
evicts it and constructs a fresh capacity-16 object. -/
theorem C7_scratch_pool_acquire :
    (∀ (st : MatchPool) (pre post : List MatchData) (e : MatchData) (required : Nat)
        (create : Nat → Option MatchData) (cfp : Option MatchData),
        st.capacity ≠ 0 → st.entries = pre ++ e :: post →
        (∀ x ∈ pre, x.ovec < required) → e.ovec ≥ required →
        thread_match_data_cache_acquire st required create cfp =
          (some e, { st with entries := pre ++ post, count := st.count - 1 }))
    ∧ (∀ (st : MatchPool) (required : Nat) (create : Nat → Option MatchData)
        (cfp : Option MatchData),
        st.capacity ≠ 0 → (∀ x ∈ st.entries, x.ovec < required) →
        st.count ≥ st.capacity →
        thread_match_data_cache_acquire st required create cfp =
          (match_data_create_fresh required create cfp,
            thread_match_data_cache_evict_tail st))
    ∧ (∀ (required : Nat) (create : Nat → Option MatchData)
        (cfp : Option MatchData) (md : MatchData), create required = some md →
        match_data_create_fresh required create cfp = some md)
    ∧ (∀ (required : Nat) (create : Nat → Option MatchData)
        (cfp : Option MatchData), create required = none →
        match_data_create_fresh required create cfp = cfp)
    ∧ (∀ st : MatchPool, st.entries ≠ [] →
        (thread_match_data_cache_evict_tail st).entries = st.entries.dropLast
        ∧ (thread_match_data_cache_evict_tail st).count = st.count - 1)
    ∧ thread_match_data_cache_acquire ⟨[], 0, 1⟩ 8
        (fun n => some ⟨1000 + n, n⟩) (some ⟨999, 999⟩) =
        (some ⟨1008, 8⟩, ⟨[], 0, 1⟩)
    ∧ thread_match_data_cache_release ⟨[], 0, 1⟩ ⟨1008, 8⟩ = ⟨[⟨1008, 8⟩], 1, 1⟩
    ∧ thread_match_data_cache_acquire ⟨[⟨1008, 8⟩], 1, 1⟩ 4
        (fun n => some ⟨1000 + n, n⟩) (some ⟨999, 999⟩) =
        (some ⟨1008, 8⟩, ⟨[], 0, 1⟩)
    ∧ thread_match_data_cache_acquire ⟨[⟨1008, 8⟩], 1, 1⟩ 16
        (fun n => some ⟨1000 + n, n⟩) (some ⟨999, 999⟩) =
        (some ⟨1016, 16⟩, ⟨[], 0, 1⟩) := by
  refine ⟨?_, ?_, ?_, ?_, ?_, by decide, by decide, by decide, by decide⟩
  · intro st pre post e required create cfp hcap hentries hmiss hfit
    unfold thread_match_data_cache_acquire
    rw [if_pos hcap, hentries, scanAcquire_found pre post e required hmiss hfit]
  · intro st required create cfp hcap hmiss hcount
    unfold thread_match_data_cache_acquire
    rw [if_pos hcap, scanAcquire_none st.entries required hmiss]
    dsimp only
    rw [if_pos hcount]
  · intro required create cfp md hc
    unfold match_data_create_fresh
    rw [hc]
  · intro required create cfp hc
    unfold match_data_create_fresh
    rw [hc]
  · intro st hne
    cases hentries : st.entries with
    | nil => exact absurd hentries hne
    | cons y ys =>
      unfold thread_match_data_cache_evict_tail
      rw [hentries]
      dsimp only
      exact ⟨rfl, rfl⟩

/-- Witness for C7: the first-fit clause applied to a pool holding a
capacity-2 and a capacity-8 object with requirement 4 (the head entry is
skipped, the second is unlinked and returned). -/
theorem C7_scratch_pool_acquire_witness :
    thread_match_data_cache_acquire (⟨[⟨50, 2⟩, ⟨60, 8⟩], 2, 4⟩ : MatchPool) 4
        (fun n => some ⟨1000 + n, n⟩) (some ⟨999, 999⟩) =
      (some ⟨60, 8⟩, ⟨[⟨50, 2⟩], 1, 4⟩)
    ∧ thread_match_data_cache_acquire (⟨[⟨50, 2⟩], 1, 1⟩ : MatchPool) 4
        (fun n => some ⟨1000 + n, n⟩) (some ⟨999, 999⟩) =
      (some ⟨1004, 4⟩, ⟨[], 0, 1⟩) :=
  ⟨C7_scratch_pool_acquire.1 ⟨[⟨50, 2⟩, ⟨60, 8⟩], 2, 4⟩ [⟨50, 2⟩] [] ⟨60, 8⟩ 4
      (fun n => some ⟨1000 + n, n⟩) (some ⟨999, 999⟩) (by decide) (by decide)
      (by decide) (by decide),
   C7_scratch_pool_acquire.2.1 ⟨[⟨50, 2⟩], 1, 1⟩ 4
      (fun n => some ⟨1000 + n, n⟩) (some ⟨999, 999⟩) (by decide) (by decide)
      (by decide)⟩

/-- C9: for every input (of a length representable as `Py_ssize_t`), the
sparse hash mixes exactly the bytes at positions `stride - 1`,
`2 * stride - 1`, … (that is what `sparseSamples` collects) into the
FNV accumulator and folds in the shifted length; the stride chosen by the
doubling loop samples at most 8 positions regardless of the input length;
inputs of length 0 or 1 hash to the offset basis; the natural value `-1`
is replaced by the fixed alternate `-2`; and the sentinel `-1` is never
returned. -/
theorem C9_sparse_hash_spec (data : List Nat) (hlen : data.length < 2 ^ 63) :
    pcre_sparse_hash_natural data =
        (sparseSamples data (compute_sparse_stride data.length)).foldl fnvMixStep
          FNV64_OFFSET ^^^ (data.length >>> 5)
    ∧ (sparseSamples data (compute_sparse_stride data.length)).length =
        data.length / compute_sparse_stride data.length
    ∧ (sparseSamples data (compute_sparse_stride data.length)).length ≤ 8
    ∧ (data.length ≤ 1 → pcre_sparse_hash data = FNV64_OFFSET)
    ∧ (pcre_sparse_hash_natural data = HASH_SENTINEL →
        pcre_sparse_hash data = HASH_SUBSTITUTE)
    ∧ pcre_sparse_hash data ≠ HASH_SENTINEL := by
  have hstride : 2 ≤ compute_sparse_stride data.length :=
    compute_sparse_stride_pos data.length
  have hsampleLen : (sparseSamples data (compute_sparse_stride data.length)).length =
      data.length / compute_sparse_stride data.length :=
    sparseSamples_length data _ (by omega)
  have hnat : pcre_sparse_hash_natural data =
      (sparseSamples data (compute_sparse_stride data.length)).foldl fnvMixStep
        FNV64_OFFSET ^^^ (data.length >>> 5) := by
    unfold pcre_sparse_hash_natural
    by_cases hgt : data.length > 1
    · rw [if_pos hgt, fnv_mix_eq_foldl]
    · rw [if_neg hgt]
      have hempty : sparseSamples data (compute_sparse_stride data.length) = [] := by
        unfold sparseSamples
        exact samplesFrom_out_of_range _ data _ _ (by omega)
      rw [hempty, List.foldl_nil]
  refine ⟨hnat, hsampleLen, ?_, ?_, ?_, ?_⟩
  · rw [hsampleLen]
    exact compute_sparse_stride_div_le data.length hlen
  · intro hle
    have hshift : data.length >>> 5 = 0 := by
      rw [Nat.shiftRight_eq_div_pow]
      omega
    have hnat1 : pcre_sparse_hash_natural data = FNV64_OFFSET := by
      unfold pcre_sparse_hash_natural
      rw [if_neg (by omega), hshift, Nat.xor_zero]
    unfold pcre_sparse_hash
    rw [hnat1, if_neg (by decide)]
  · intro hsent
    unfold pcre_sparse_hash
    rw [hsent, if_pos rfl]
  · unfold pcre_sparse_hash
    by_cases hsent : pcre_sparse_hash_natural data = HASH_SENTINEL
    · rw [if_pos hsent]
      decide
    · rw [if_neg hsent]
      exact hsent

/-- Witness for C9: the spec instantiated at a pair of concrete inputs, an
empty one and an 8-byte one. -/
theorem C9_sparse_hash_spec_witness :
    pcre_sparse_hash ([] : List Nat) = FNV64_OFFSET
    ∧ (sparseSamples [3, 1, 4, 1, 5, 9, 2, 6]
        (compute_sparse_stride ([3, 1, 4, 1, 5, 9, 2, 6] : List Nat).length)).length ≤ 8
    ∧ pcre_sparse_hash [3, 1, 4, 1, 5, 9, 2, 6] ≠ HASH_SENTINEL :=
  ⟨(C9_sparse_hash_spec [] (by decide)).2.2.2.1 (by decide),
   (C9_sparse_hash_spec [3, 1, 4, 1, 5, 9, 2, 6] (by decide)).2.2.1,
   (C9_sparse_hash_spec [3, 1, 4, 1, 5, 9, 2, 6] (by decide)).2.2.2.2.2⟩

/-- C6: `SparseCacheKey` equality demands full structural equality of the
pattern, the flags bitmask and the jit flag on top of the cached hash, so
keys with equal hashes but a differing component always compare unequal and
a hash collision can never produce a false cache hit. -/
theorem C6_key_collision_safe :
    (∀ a b : SparseCacheKey, SparseCacheKey_eq a b = true →
        a.pattern = b.pattern ∧ a.flags = b.flags ∧ a.jit = b.jit)
    ∧ (∀ a b : SparseCacheKey, SparseCacheKey_hash a = SparseCacheKey_hash b →
        a.pattern ≠ b.pattern ∨ a.flags ≠ b.flags ∨ a.jit ≠ b.jit →
        SparseCacheKey_eq a b = false) := by
  constructor
  · intro a b h
    unfold SparseCacheKey_eq at h
    split at h
    · rename_i hcond
      exact ⟨of_decide_eq_true h, hcond.2.1, hcond.2.2⟩
    · exact absurd h (by simp)
  · intro a b hhash hne
    unfold SparseCacheKey_eq
    split
    · rename_i hcond
      rcases hne with hp | hf | hj
      · exact decide_eq_false hp
      · exact absurd hcond.2.1 hf
      · exact absurd hcond.2.2 hj
    · rfl

/-- Witness for C6: the 1-byte patterns `[5]` and `[7]` collide under the
sparse hash (both degenerate to the offset basis), yet the constructed keys
compare unequal. -/
theorem C6_key_collision_safe_witness :
    SparseCacheKey_hash (SparseCacheKey_new [5] 0 false) =
      SparseCacheKey_hash (SparseCacheKey_new [7] 0 false)
    ∧ SparseCacheKey_eq (SparseCacheKey_new [5] 0 false)
        (SparseCacheKey_new [7] 0 false) = false :=
  ⟨by decide,
   C6_key_collision_safe.2 (SparseCacheKey_new [5] 0 false)
     (SparseCacheKey_new [7] 0 false) (by decide) (Or.inl (by decide))⟩

end PyPcre
